import Mathlib

/-!
Shallow embedding of the minesweeper engine of `mocoma_minesweeper_src.py`
(class `MinesweeperGrid` and the turn loop of `MinesweeperGame`), together
with theorems settling the specification claims about it.

Conventions of the embedding:
* Python ints used as coordinates are `Int`; grid dimensions are `Nat`
  (every grid the program builds has the `width`/`height` it was given,
  and `randint(0, width - 1)` presupposes a positive bound).
* A Python method that can raise (`OutOfGridException`) returns `Option`:
  `none` is the exception, and since the source methods validate before
  mutating, `none` also models that the grid is left untouched.
* The random stream consumed by `randint` is passed explicitly as a list
  of draws; recursion of `clear_from` is run on explicit fuel, with a
  theorem showing the fuel `width * height + 1` always suffices.
-/

namespace Mocoma

/-- Enum `MinesweeperGrid.Cell.STATES`. -/
inductive STATES
  | HIDDEN
  | FLAGGED
  | SHOWN
deriving DecidableEq, Repr

/-- Class `MinesweeperGrid.Cell`: a mine flag plus a visibility state. -/
structure Cell where
  has_mine : Bool
  state : STATES
deriving DecidableEq, Repr

/-- Class `MinesweeperGrid`: dimensions plus the flat cell list `_cells`. -/
structure Grid where
  width : Nat
  height : Nat
  cells : List Cell
deriving DecidableEq, Repr

/-- Constructor `MinesweeperGrid.__init__`: `self._cells = [self.Cell] * (width * height)`.
The list holds `width * height` references to the class object `Cell`, whose
class-level defaults are `has_mine = False`, `state = STATES.HIDDEN`; every
attribute read on an entry therefore sees that default cell. -/
def Grid.init (width height : Nat) : Grid :=
  ⟨width, height, List.replicate (width * height) ⟨false, STATES.HIDDEN⟩⟩

/-- A grid is well formed when its cell list has `width * height` entries,
as every grid built by `__init__` does. -/
def WF (g : Grid) : Prop := g.cells.length = g.width * g.height

instance (g : Grid) : Decidable (WF g) := by unfold WF; infer_instance

/-- Method `coords_are_valid`: `x >= 0 and x < self.width and y >= 0 and y < self.height`. -/
def coords_are_valid (g : Grid) (x y : Int) : Bool :=
  decide (0 ≤ x ∧ x < (g.width : Int) ∧ 0 ≤ y ∧ y < (g.height : Int))

/-- Row-major index `y * self.width + x` used by `get_cell` and `set_cell`. -/
def cellIdx (g : Grid) (x y : Int) : Nat := y.toNat * g.width + x.toNat

/-- Method `get_cell`: raises (`none`) when the coordinates are invalid,
otherwise returns `self._cells[y * self.width + x]`. -/
def get_cell (g : Grid) (x y : Int) : Option Cell :=
  if coords_are_valid g x y then g.cells[cellIdx g x y]? else none

/-- Method `set_cell`: raises (`none`) when the coordinates are invalid,
otherwise replaces `self._cells[y * self.width + x]`. -/
def set_cell (g : Grid) (x y : Int) (cell : Cell) : Option Grid :=
  if coords_are_valid g x y then some { g with cells := g.cells.set (cellIdx g x y) cell }
  else none

/-- Method `put_mine`: read the cell, rebuild it with `has_mine = True`
keeping its state, store it back. -/
def put_mine (g : Grid) (x y : Int) : Option Grid :=
  match get_cell g x y with
  | none => none
  | some c => set_cell g x y ⟨true, c.state⟩

/-- Method `show_cell`: read the cell, rebuild it with state `SHOWN`
keeping its mine flag, store it back. -/
def show_cell (g : Grid) (x y : Int) : Option Grid :=
  match get_cell g x y with
  | none => none
  | some c => set_cell g x y ⟨c.has_mine, STATES.SHOWN⟩

/-- Method `flag_cell`: read the cell, rebuild it with state `FLAGGED`. -/
def flag_cell (g : Grid) (x y : Int) : Option Grid :=
  match get_cell g x y with
  | none => none
  | some c => set_cell g x y ⟨c.has_mine, STATES.FLAGGED⟩

/-- Method `hide_cell`: read the cell, rebuild it with state `HIDDEN`. -/
def hide_cell (g : Grid) (x y : Int) : Option Grid :=
  match get_cell g x y with
  | none => none
  | some c => set_cell g x y ⟨c.has_mine, STATES.HIDDEN⟩

/-- Method `is_loss`: `any(cell.has_mine and cell.state == SHOWN for cell in self._cells)`. -/
def is_loss (g : Grid) : Bool :=
  g.cells.any fun cell => cell.has_mine && cell.state == STATES.SHOWN

/-- Method `is_win`: every cell is either a flagged mine or an unflagged non-mine. -/
def is_win (g : Grid) : Bool :=
  g.cells.all fun cell =>
    (cell.has_mine && cell.state == STATES.FLAGGED)
      || (!cell.has_mine && cell.state != STATES.FLAGGED)

/-- Method `ended`: `self.is_loss() or self.is_win()`. -/
def ended (g : Grid) : Bool := is_loss g || is_win g

/-- The list of integers `a, a+1, ..., b-1`, as Python `range(a, b)`. -/
def intRange (a b : Int) : List Int :=
  (List.range (b - a).toNat).map fun (i : Nat) => a + (i : Int)

/-- Mine test used inside the counting loops of `n_mines_around`: the code
only evaluates `self.get_cell(dx, dy).has_mine` at coordinates its clipped
ranges make valid, so the `none` branch is never reached there. -/
def mine_at (g : Grid) (x y : Int) : Bool :=
  match get_cell g x y with
  | some c => c.has_mine
  | none => false

/-- The coordinate pairs visited by the two nested loops of `n_mines_around`:
`dx in range(max(0, x - 1), min(x + 2, self.width))` and
`dy in range(max(0, y - 1), min(y + 2, self.height))`. -/
def around_coords (g : Grid) (x y : Int) : List (Int × Int) :=
  (intRange (max 0 (x - 1)) (min (x + 2) (g.width : Int))).flatMap fun dx =>
    (intRange (max 0 (y - 1)) (min (y + 2) (g.height : Int))).map fun dy => (dx, dy)

/-- Method `n_mines_around`: raises (`none`) on invalid coordinates, else
counts the mined cells among the clipped 3x3 block around `(x, y)` - the
loop bounds include the center cell itself. -/
def n_mines_around (g : Grid) (x y : Int) : Option Nat :=
  if coords_are_valid g x y then
    some ((around_coords g x y).countP fun d => mine_at g d.1 d.2)
  else none

/-- Hidden-state test of the recursion guard of `clear_from`:
`self.get_cell(*coord).state == self.Cell.STATES.HIDDEN`. -/
def isHiddenAt (g : Grid) (c : Int × Int) : Bool :=
  match get_cell g c.1 c.2 with
  | some cell => cell.state == STATES.HIDDEN
  | none => false

/-- One iteration of the `for coord in coords_around` loop of `clear_from`:
thread the grid through, and recurse (`sub`) only when the neighbor is
in bounds and currently hidden.  The running `Nat` counts activations of
`clear_from` (calls entered), for the resource-bound claims. -/
def clearStep (sub : Grid → Int → Int → Option (Grid × Nat))
    (acc : Option (Grid × Nat)) (cx cy : Int) : Option (Grid × Nat) :=
  match acc with
  | none => none
  | some (gc, k) =>
    if coords_are_valid gc cx cy && isHiddenAt gc (cx, cy) then
      match sub gc cx cy with
      | none => none
      | some (g2, k2) => some (g2, k + k2)
    else some (gc, k)

/-- Method `clear_from`, on explicit fuel: show the cell, compute
`n_mines_around`, and when it is zero walk the four orthogonal neighbors
`(x+1,y), (x-1,y), (x,y+1), (x,y-1)` in order, recursing into those that
are in bounds and hidden.  Fuel `0` is `none`; the adequacy theorem shows
fuel `width * height + 1` never runs out. -/
def clearFromAux : Nat → Grid → Int → Int → Option (Grid × Nat)
  | 0, _, _, _ => none
  | fuel + 1, g, x, y =>
    match show_cell g x y with
    | none => none
    | some g1 =>
      match n_mines_around g1 x y with
      | none => none
      | some n =>
        if n = 0 then
          clearStep (clearFromAux fuel)
            (clearStep (clearFromAux fuel)
              (clearStep (clearFromAux fuel)
                (clearStep (clearFromAux fuel) (some (g1, 1)) (x + 1) y)
                (x - 1) y)
              x (y + 1))
            x (y - 1)
        else some (g1, 1)

/-- Method `clear_from` as the program runs it: the recursion with enough
fuel for any well-formed grid, returning the final grid. -/
def clear_from (g : Grid) (x y : Int) : Option Grid :=
  (clearFromAux (g.width * g.height + 1) g x y).map Prod.fst

/-- Number of mined cells of a grid (specification-side counter). -/
def count_mines (g : Grid) : Nat := g.cells.countP fun c => c.has_mine

/-- Number of hidden cells of a grid (termination measure of `clear_from`). -/
def hidden_count (g : Grid) : Nat :=
  g.cells.countP fun c => c.state == STATES.HIDDEN

/-- One candidate draw of `gen_random`: the first draw together with the
`while (x, y) in forbidden_coords and grid.get_cell(x, y).has_mine:` redraw
loop, consuming the random stream until the guard fails.  An exhausted
stream is `none`; so is the exception `get_cell` would raise on an
out-of-range forbidden draw. -/
def draw_point (g : Grid) (forbidden_coords : List (Int × Int)) :
    List (Int × Int) → Option ((Int × Int) × List (Int × Int))
  | [] => none
  | d :: rest =>
    if d ∈ forbidden_coords then
      match get_cell g d.1 d.2 with
      | none => none
      | some c => if c.has_mine then draw_point g forbidden_coords rest else some (d, rest)
    else some (d, rest)

/-- The `while n_mines:` loop of `gen_random`: draw a point, `put_mine`
there, decrement, on the grid threaded through. -/
def gen_random_go (forbidden_coords : List (Int × Int)) :
    Nat → Grid → List (Int × Int) → Option Grid
  | 0, g, _ => some g
  | n + 1, g, draws =>
    match draw_point g forbidden_coords draws with
    | none => none
    | some (d, rest) =>
      match put_mine g d.1 d.2 with
      | none => none
      | some g2 => gen_random_go forbidden_coords n g2 rest

/-- Classmethod `gen_random`: build the all-hidden grid and run the mine
placement loop on the given stream of `randint` draws. -/
def gen_random (width height : Nat) (n_mines : Nat)
    (forbidden_coords : List (Int × Int)) (draws : List (Int × Int)) : Option Grid :=
  gen_random_go forbidden_coords n_mines (Grid.init width height) draws

/-- A Python value handed to `len`: a list (which has `__len__`) or a
generator expression over the same elements (which has not). -/
inductive PySized
  | list : List Cell → PySized
  | generator : List Cell → PySized

/-- CPython's `len`: the length of a list, but a `TypeError` (modelled as
`none`) on a generator expression, which carries no `__len__`. -/
def py_len : PySized → Option Nat
  | PySized.list l => some l.length
  | PySized.generator _ => none

/-- Method `get_n_mines`: `len(cell for cell in self._cells if cell.has_mine == True)`.
The parenthesized argument of `len` is a generator expression, not a list,
so `len` is applied to an unsized value. -/
def get_n_mines (g : Grid) : Option Nat :=
  py_len (PySized.generator (g.cells.filter fun c => c.has_mine == true))

/-- Enum `MinesweeperIO.ACTIONS`. -/
inductive ACTIONS
  | QUIT
  | SHOW
  | FLAG
  | NOTHING
deriving DecidableEq, Repr

/-- Method `MinesweeperGame.do_action`: `SHOW` runs `clear_from`, `FLAG`
runs `flag_cell`, `QUIT` runs `io_controller.destroy()` (grid untouched,
teardown flag `true`), anything else does nothing.  A raised
`OutOfGridException` propagates (`none`). -/
def do_action (action : ACTIONS) (coords : Int × Int) (g : Grid) : Option (Grid × Bool) :=
  match action with
  | ACTIONS.SHOW => (clear_from g coords.1 coords.2).map fun g2 => (g2, false)
  | ACTIONS.FLAG => (flag_cell g coords.1 coords.2).map fun g2 => (g2, false)
  | ACTIONS.QUIT => some (g, true)
  | ACTIONS.NOTHING => some (g, false)

/-- Method `MinesweeperGame.play_until_end`: `while not self.grid.ended():`
get one input and `do_action` it.  The input stream is explicit; `none`
models the blocking wait on an exhausted stream or an uncaught exception.
The `Nat` result counts how often `destroy()` was invoked. -/
def play_until_end : Grid → List (ACTIONS × (Int × Int)) → Nat → Option (Grid × Nat)
  | g, [], teardowns => if ended g then some (g, teardowns) else none
  | g, (a, c) :: rest, teardowns =>
    if ended g then some (g, teardowns)
    else
      match do_action a c g with
      | none => none
      | some (g2, tore) => play_until_end g2 rest (teardowns + if tore then 1 else 0)

end Mocoma

namespace Mocoma

/-! ### Basic coordinate and cell-access lemmas -/

theorem coords_are_valid_iff (g : Grid) (x y : Int) :
    coords_are_valid g x y = true ↔
      0 ≤ x ∧ x < (g.width : Int) ∧ 0 ≤ y ∧ y < (g.height : Int) := by
  simp [coords_are_valid]

theorem row_major_lt {a b w h : Nat} (ha : a < w) (hb : b < h) :
    b * w + a < w * h := by
  calc b * w + a < b * w + w := by omega
    _ = (b + 1) * w := by ring
    _ ≤ h * w := Nat.mul_le_mul_right _ (by omega)
    _ = w * h := Nat.mul_comm _ _

theorem cellIdx_lt {g : Grid} {x y : Int} (hw : WF g)
    (h : coords_are_valid g x y = true) : cellIdx g x y < g.cells.length := by
  rw [coords_are_valid_iff] at h
  unfold WF at hw
  rw [hw]
  unfold cellIdx
  exact row_major_lt (by omega) (by omega)

theorem cellIdx_inj {g : Grid} {x y u v : Int}
    (h1 : coords_are_valid g x y = true) (h2 : coords_are_valid g u v = true)
    (h : cellIdx g x y = cellIdx g u v) : x = u ∧ y = v := by
  rw [coords_are_valid_iff] at h1 h2
  unfold cellIdx at h
  have hxw : x.toNat < g.width := by omega
  have huw : u.toNat < g.width := by omega
  have hx : (y.toNat * g.width + x.toNat) % g.width = x.toNat := by
    rw [Nat.add_comm, Nat.add_mul_mod_self_right, Nat.mod_eq_of_lt hxw]
  have hu : (v.toNat * g.width + u.toNat) % g.width = u.toNat := by
    rw [Nat.add_comm, Nat.add_mul_mod_self_right, Nat.mod_eq_of_lt huw]
  have hxu : x.toNat = u.toNat := by rw [← hx, ← hu, h]
  have hyv : y.toNat = v.toNat := by
    have hw : 0 < g.width := by omega
    have hmul : y.toNat * g.width = v.toNat * g.width := by omega
    exact Nat.eq_of_mul_eq_mul_right hw hmul
  omega

theorem get_cell_of_valid {g : Grid} {x y : Int} (h : coords_are_valid g x y = true) :
    get_cell g x y = g.cells[cellIdx g x y]? := by
  simp [get_cell, h]

theorem get_cell_some {g : Grid} {x y : Int} (hw : WF g)
    (h : coords_are_valid g x y = true) : ∃ c, get_cell g x y = some c := by
  rw [get_cell_of_valid h]
  exact ⟨_, List.getElem?_eq_getElem (cellIdx_lt hw h)⟩

theorem get_cell_none {g : Grid} {x y : Int} (h : ¬ coords_are_valid g x y = true) :
    get_cell g x y = none := by
  simp [get_cell, h]

theorem get_cell_valid_of_some {g : Grid} {x y : Int} {c : Cell}
    (h : get_cell g x y = some c) : coords_are_valid g x y = true := by
  by_contra hv
  rw [get_cell_none hv] at h
  exact Option.noConfusion h

theorem set_cell_of_valid {g : Grid} {x y : Int} {cell : Cell}
    (h : coords_are_valid g x y = true) :
    set_cell g x y cell = some { g with cells := g.cells.set (cellIdx g x y) cell } := by
  simp [set_cell, h]

theorem set_cell_none {g : Grid} {x y : Int} {cell : Cell}
    (h : ¬ coords_are_valid g x y = true) : set_cell g x y cell = none := by
  simp [set_cell, h]

theorem set_cell_valid_of_some {g : Grid} {x y : Int} {cell : Cell} {g2 : Grid}
    (h : set_cell g x y cell = some g2) : coords_are_valid g x y = true := by
  by_contra hv
  rw [set_cell_none hv] at h
  exact Option.noConfusion h

theorem set_cell_shape {g : Grid} {x y : Int} {cell : Cell} {g2 : Grid}
    (h : set_cell g x y cell = some g2) :
    g2.width = g.width ∧ g2.height = g.height ∧ g2.cells.length = g.cells.length := by
  have hv := set_cell_valid_of_some h
  rw [set_cell_of_valid hv] at h
  cases h
  exact ⟨rfl, rfl, List.length_set ..⟩

theorem coords_are_valid_congr {g g2 : Grid} (hwid : g2.width = g.width)
    (hhei : g2.height = g.height) (x y : Int) :
    coords_are_valid g2 x y = coords_are_valid g x y := by
  unfold coords_are_valid
  rw [hwid, hhei]

theorem cellIdx_congr {g g2 : Grid} (hwid : g2.width = g.width) (x y : Int) :
    cellIdx g2 x y = cellIdx g x y := by
  unfold cellIdx
  rw [hwid]

theorem get_set_same {g : Grid} {x y : Int} {cell : Cell} {g2 : Grid} (hw : WF g)
    (h : set_cell g x y cell = some g2) : get_cell g2 x y = some cell := by
  have hv := set_cell_valid_of_some h
  have hsh := set_cell_shape h
  rw [set_cell_of_valid hv] at h
  cases h
  rw [get_cell_of_valid (by rw [coords_are_valid_congr hsh.1 hsh.2.1]; exact hv)]
  simp only [cellIdx_congr hsh.1]
  simp [List.getElem?_set, cellIdx_lt hw hv]

theorem get_set_other {g : Grid} {x y : Int} {cell : Cell} {g2 : Grid}
    (h : set_cell g x y cell = some g2) {u v : Int} (hne : ¬ (u = x ∧ v = y)) :
    get_cell g2 u v = get_cell g u v := by
  have hv := set_cell_valid_of_some h
  have hsh := set_cell_shape h
  rw [set_cell_of_valid hv] at h
  cases h
  by_cases huv : coords_are_valid g u v = true
  · rw [get_cell_of_valid (by rw [coords_are_valid_congr hsh.1 hsh.2.1]; exact huv),
      get_cell_of_valid huv]
    simp only [cellIdx_congr hsh.1]
    have hidx : cellIdx g x y ≠ cellIdx g u v := by
      intro hcontra
      exact hne ⟨(cellIdx_inj hv huv hcontra).1.symm, (cellIdx_inj hv huv hcontra).2.symm⟩
    exact List.getElem?_set_ne hidx
  · rw [get_cell_none (by rw [coords_are_valid_congr hsh.1 hsh.2.1]; exact huv),
      get_cell_none huv]

theorem countP_set (p : Cell → Bool) :
    ∀ (l : List Cell) (i : Nat) (a b : Cell), l[i]? = some a →
      (l.set i b).countP p + (if p a then 1 else 0) =
        l.countP p + (if p b then 1 else 0) := by
  intro l
  induction l with
  | nil => intro i a b h; simp at h
  | cons hd tl ih =>
    intro i a b h
    cases i with
    | zero =>
      simp only [List.getElem?_cons_zero, Option.some.injEq] at h
      subst h
      simp only [List.set_cons_zero, List.countP_cons]
      omega
    | succ j =>
      simp only [List.getElem?_cons_succ] at h
      simp only [List.set_cons_succ, List.countP_cons]
      have := ih j a b h
      omega

end Mocoma

namespace Mocoma

/-! ### State evolution: during `clear_from`, cells only ever change by
becoming `SHOWN`, with their mine flag intact -/

/-- Visibility state of the cell at a coordinate pair. -/
def stateAt (g : Grid) (c : Int × Int) : Option STATES :=
  (get_cell g c.1 c.2).map Cell.state

/-- How one cell may change during a `clear_from` run: untouched, or shown
with its mine flag kept. -/
def cellEvolves (a b : Cell) : Prop :=
  b = a ∨ (b.has_mine = a.has_mine ∧ b.state = STATES.SHOWN)

/-- How a grid may change during a `clear_from` run: same shape, and every
cell evolves per `cellEvolves`. -/
structure Evolves (g g2 : Grid) : Prop where
  width_eq : g2.width = g.width
  height_eq : g2.height = g.height
  length_eq : g2.cells.length = g.cells.length
  cell : ∀ (i : Nat) (a b : Cell), g.cells[i]? = some a → g2.cells[i]? = some b →
    cellEvolves a b

theorem cellEvolves_refl (a : Cell) : cellEvolves a a := Or.inl rfl

theorem cellEvolves_trans {a b c : Cell} (h1 : cellEvolves a b) (h2 : cellEvolves b c) :
    cellEvolves a c := by
  rcases h2 with h2 | h2
  · rw [h2]; exact h1
  · rcases h1 with h1 | h1
    · rw [h1] at h2; exact Or.inr h2
    · exact Or.inr ⟨h2.1.trans h1.1, h2.2⟩

theorem evolves_refl (g : Grid) : Evolves g g := by
  refine ⟨rfl, rfl, rfl, fun i a b ha hb => ?_⟩
  rw [ha] at hb
  cases hb
  exact cellEvolves_refl a

theorem evolves_trans {g g2 g3 : Grid} (h1 : Evolves g g2) (h2 : Evolves g2 g3) :
    Evolves g g3 := by
  refine ⟨h2.width_eq.trans h1.width_eq, h2.height_eq.trans h1.height_eq,
    h2.length_eq.trans h1.length_eq, fun i a c ha hc => ?_⟩
  have hi : i < g2.cells.length := by
    rw [← h2.length_eq]
    exact (List.getElem?_eq_some.mp hc).1
  have hb := List.getElem?_eq_getElem hi
  exact cellEvolves_trans (h1.cell i a _ ha hb) (h2.cell i _ c hb hc)

theorem Evolves.wf {g g2 : Grid} (h : Evolves g g2) (hw : WF g) : WF g2 := by
  unfold WF at hw ⊢
  rw [h.width_eq, h.height_eq, h.length_eq, hw]

theorem Evolves.valid_congr {g g2 : Grid} (h : Evolves g g2) (x y : Int) :
    coords_are_valid g2 x y = coords_are_valid g x y :=
  coords_are_valid_congr h.width_eq h.height_eq x y

theorem Evolves.get_cell_rel {g g2 : Grid} (h : Evolves g g2) (x y : Int) :
    (get_cell g x y = none ∧ get_cell g2 x y = none) ∨
      (∃ a b, get_cell g x y = some a ∧ get_cell g2 x y = some b ∧ cellEvolves a b) := by
  by_cases hv : coords_are_valid g x y = true
  · rw [get_cell_of_valid hv, get_cell_of_valid (by rw [h.valid_congr]; exact hv),
      cellIdx_congr h.width_eq]
    by_cases hi : cellIdx g x y < g.cells.length
    · have hi2 : cellIdx g x y < g2.cells.length := by rw [h.length_eq]; exact hi
      exact Or.inr ⟨_, _, List.getElem?_eq_getElem hi, List.getElem?_eq_getElem hi2,
        h.cell _ _ _ (List.getElem?_eq_getElem hi) (List.getElem?_eq_getElem hi2)⟩
    · refine Or.inl ⟨List.getElem?_eq_none (by omega), List.getElem?_eq_none ?_⟩
      rw [h.length_eq]
      omega
  · rw [get_cell_none hv, get_cell_none (by rw [h.valid_congr]; exact hv)]
    exact Or.inl ⟨rfl, rfl⟩

theorem Evolves.mine_at_eq {g g2 : Grid} (h : Evolves g g2) (x y : Int) :
    mine_at g2 x y = mine_at g x y := by
  rcases h.get_cell_rel x y with ⟨h1, h2⟩ | ⟨a, b, h1, h2, he⟩
  · simp [mine_at, h1, h2]
  · rcases he with he | he
    · simp [mine_at, h1, h2, he]
    · simp [mine_at, h1, h2, he.1]

theorem Evolves.stateAt_shown {g g2 : Grid} (h : Evolves g g2) {c : Int × Int}
    (hs : stateAt g c = some STATES.SHOWN) : stateAt g2 c = some STATES.SHOWN := by
  rcases h.get_cell_rel c.1 c.2 with ⟨h1, h2⟩ | ⟨a, b, h1, h2, he⟩
  · simp [stateAt, h1] at hs
  · simp only [stateAt, h1, Option.map_some'] at hs
    have ha : a.state = STATES.SHOWN := Option.some.inj hs
    rcases he with he | he
    · simp [stateAt, h2, he, ha]
    · simp [stateAt, h2, he.2]

theorem Evolves.stateAt_hidden_back {g g2 : Grid} (h : Evolves g g2) {c : Int × Int}
    (hs : stateAt g2 c = some STATES.HIDDEN) : stateAt g c = some STATES.HIDDEN := by
  rcases h.get_cell_rel c.1 c.2 with ⟨h1, h2⟩ | ⟨a, b, h1, h2, he⟩
  · simp [stateAt, h2] at hs
  · simp only [stateAt, h2, Option.map_some'] at hs
    have hb : b.state = STATES.HIDDEN := Option.some.inj hs
    rcases he with he | he
    · rw [he] at hb
      simp [stateAt, h1, hb]
    · rw [he.2] at hb
      exact absurd hb (by simp)

theorem Evolves.not_hidden {g g2 : Grid} (h : Evolves g g2) {c : Int × Int}
    (hs : ¬ stateAt g c = some STATES.HIDDEN) : ¬ stateAt g2 c = some STATES.HIDDEN :=
  fun hcon => hs (h.stateAt_hidden_back hcon)

theorem Evolves.n_mines_around_eq {g g2 : Grid} (h : Evolves g g2) (x y : Int) :
    n_mines_around g2 x y = n_mines_around g x y := by
  unfold n_mines_around
  rw [h.valid_congr]
  by_cases hv : coords_are_valid g x y = true
  · simp only [hv, if_true, Option.some.injEq]
    unfold around_coords
    rw [h.width_eq, h.height_eq]
    exact List.countP_congr fun d _ => by rw [h.mine_at_eq d.1 d.2]
  · simp [hv]

theorem countP_le_pointwise (p : Cell → Bool) :
    ∀ (l l2 : List Cell), l2.length = l.length →
      (∀ (i : Nat) (a b : Cell), l[i]? = some a → l2[i]? = some b →
        p b = true → p a = true) →
      l2.countP p ≤ l.countP p := by
  intro l
  induction l with
  | nil =>
    intro l2 hlen _
    rw [List.length_nil, List.length_eq_zero] at hlen
    simp [hlen]
  | cons hd tl ih =>
    intro l2 hlen hpt
    cases l2 with
    | nil => simp
    | cons hd2 tl2 =>
      simp only [List.length_cons] at hlen
      have h0 := hpt 0 hd hd2 (by simp) (by simp)
      have htl := ih tl2 (by omega) fun i a b ha hb =>
        hpt (i + 1) a b (by simpa using ha) (by simpa using hb)
      simp only [List.countP_cons]
      by_cases hp2 : p hd2 = true
      · rw [if_pos hp2, if_pos (h0 hp2)]
        omega
      · rw [if_neg hp2]
        omega

theorem Evolves.hidden_count_le {g g2 : Grid} (h : Evolves g g2) :
    hidden_count g2 ≤ hidden_count g := by
  unfold hidden_count
  refine countP_le_pointwise _ g.cells g2.cells h.length_eq fun i a b ha hb hp => ?_
  rcases h.cell i a b ha hb with he | he
  · rw [← he]; exact hp
  · rw [he.2] at hp; simp at hp

end Mocoma

namespace Mocoma

/-! ### Effect of the single-cell mutators -/

theorem show_cell_none {g : Grid} {x y : Int} (h : ¬ coords_are_valid g x y = true) :
    show_cell g x y = none := by
  unfold show_cell
  rw [get_cell_none h]

theorem flag_cell_none {g : Grid} {x y : Int} (h : ¬ coords_are_valid g x y = true) :
    flag_cell g x y = none := by
  unfold flag_cell
  rw [get_cell_none h]

theorem hide_cell_none {g : Grid} {x y : Int} (h : ¬ coords_are_valid g x y = true) :
    hide_cell g x y = none := by
  unfold hide_cell
  rw [get_cell_none h]

theorem put_mine_none {g : Grid} {x y : Int} (h : ¬ coords_are_valid g x y = true) :
    put_mine g x y = none := by
  unfold put_mine
  rw [get_cell_none h]

theorem n_mines_around_none {g : Grid} {x y : Int} (h : ¬ coords_are_valid g x y = true) :
    n_mines_around g x y = none := by
  simp [n_mines_around, h]

theorem show_cell_valid_of_some {g g2 : Grid} {x y : Int}
    (h : show_cell g x y = some g2) : coords_are_valid g x y = true := by
  by_contra hv
  rw [show_cell_none hv] at h
  exact Option.noConfusion h

theorem show_cell_elim {g g2 : Grid} {x y : Int} (h : show_cell g x y = some g2) :
    ∃ c, get_cell g x y = some c ∧ set_cell g x y ⟨c.has_mine, STATES.SHOWN⟩ = some g2 := by
  unfold show_cell at h
  cases hc : get_cell g x y with
  | none => rw [hc] at h; exact Option.noConfusion h
  | some c => rw [hc] at h; exact ⟨c, rfl, h⟩

theorem show_cell_some {g : Grid} {x y : Int} (hw : WF g)
    (hv : coords_are_valid g x y = true) : ∃ g2, show_cell g x y = some g2 := by
  obtain ⟨c, hc⟩ := get_cell_some hw hv
  refine ⟨{ g with cells := g.cells.set (cellIdx g x y) ⟨c.has_mine, STATES.SHOWN⟩ }, ?_⟩
  unfold show_cell
  rw [hc]
  exact set_cell_of_valid hv

theorem show_cell_evolves {g g2 : Grid} {x y : Int} (h : show_cell g x y = some g2) :
    Evolves g g2 := by
  obtain ⟨c, hget, hset⟩ := show_cell_elim h
  have hv := get_cell_valid_of_some hget
  rw [set_cell_of_valid hv] at hset
  cases hset
  refine ⟨rfl, rfl, List.length_set .., fun i a b ha hb => ?_⟩
  rw [List.getElem?_set] at hb
  by_cases hi : cellIdx g x y = i
  · rw [if_pos hi] at hb
    by_cases hlt : cellIdx g x y < g.cells.length
    · rw [if_pos hlt] at hb
      have hb2 := Option.some.inj hb
      rw [get_cell_of_valid hv] at hget
      rw [← hi] at ha
      rw [hget] at ha
      have hac := Option.some.inj ha
      rw [← hb2, ← hac]
      exact Or.inr ⟨rfl, rfl⟩
    · rw [if_neg hlt] at hb
      exact Option.noConfusion hb
  · rw [if_neg hi] at hb
    rw [ha] at hb
    cases hb
    exact cellEvolves_refl a

theorem show_cell_stateAt_self {g g2 : Grid} {x y : Int} (hw : WF g)
    (h : show_cell g x y = some g2) : stateAt g2 (x, y) = some STATES.SHOWN := by
  obtain ⟨c, _, hset⟩ := show_cell_elim h
  unfold stateAt
  rw [get_set_same hw hset]
  rfl

theorem show_cell_get_other {g g2 : Grid} {x y : Int} (h : show_cell g x y = some g2)
    {u v : Int} (hne : ¬ (u = x ∧ v = y)) : get_cell g2 u v = get_cell g u v := by
  obtain ⟨c, _, hset⟩ := show_cell_elim h
  exact get_set_other hset hne

theorem show_cell_hidden_count {g g2 : Grid} {x y : Int}
    (h : show_cell g x y = some g2) :
    hidden_count g2 + (if isHiddenAt g (x, y) then 1 else 0) = hidden_count g := by
  obtain ⟨c, hget, hset⟩ := show_cell_elim h
  have hv := get_cell_valid_of_some hget
  rw [set_cell_of_valid hv] at hset
  cases hset
  have hcells : g.cells[cellIdx g x y]? = some c := by
    rw [← get_cell_of_valid hv]
    exact hget
  have hcount := countP_set (fun cl => cl.state == STATES.HIDDEN) g.cells
    (cellIdx g x y) c ⟨c.has_mine, STATES.SHOWN⟩ hcells
  have hhid : isHiddenAt g (x, y) = (c.state == STATES.HIDDEN) := by
    unfold isHiddenAt
    rw [hget]
  unfold hidden_count
  rw [hhid]
  simpa using hcount

theorem put_mine_valid_of_some {g g2 : Grid} {x y : Int}
    (h : put_mine g x y = some g2) : coords_are_valid g x y = true := by
  by_contra hv
  rw [put_mine_none hv] at h
  exact Option.noConfusion h

theorem put_mine_elim {g g2 : Grid} {x y : Int} (h : put_mine g x y = some g2) :
    ∃ c, get_cell g x y = some c ∧ set_cell g x y ⟨true, c.state⟩ = some g2 := by
  unfold put_mine at h
  cases hc : get_cell g x y with
  | none => rw [hc] at h; exact Option.noConfusion h
  | some c => rw [hc] at h; exact ⟨c, rfl, h⟩

theorem put_mine_some {g : Grid} {x y : Int} (hw : WF g)
    (hv : coords_are_valid g x y = true) : ∃ g2, put_mine g x y = some g2 := by
  obtain ⟨c, hc⟩ := get_cell_some hw hv
  refine ⟨{ g with cells := g.cells.set (cellIdx g x y) ⟨true, c.state⟩ }, ?_⟩
  unfold put_mine
  rw [hc]
  exact set_cell_of_valid hv

theorem put_mine_shape {g g2 : Grid} {x y : Int} (h : put_mine g x y = some g2) :
    g2.width = g.width ∧ g2.height = g.height ∧ g2.cells.length = g.cells.length := by
  obtain ⟨c, _, hset⟩ := put_mine_elim h
  exact set_cell_shape hset

theorem put_mine_stateAt {g g2 : Grid} {x y : Int} (hw : WF g)
    (h : put_mine g x y = some g2) (u v : Int) :
    (get_cell g2 u v).map Cell.state = (get_cell g u v).map Cell.state := by
  obtain ⟨c, hget, hset⟩ := put_mine_elim h
  by_cases huv : u = x ∧ v = y
  · obtain ⟨hu, hv2⟩ := huv
    subst hu; subst hv2
    rw [get_set_same hw hset, hget]
    rfl
  · rw [get_set_other hset huv]

theorem put_mine_count_le {g g2 : Grid} {x y : Int} (h : put_mine g x y = some g2) :
    count_mines g2 ≤ count_mines g + 1 := by
  obtain ⟨c, hget, hset⟩ := put_mine_elim h
  have hv := get_cell_valid_of_some hget
  rw [set_cell_of_valid hv] at hset
  cases hset
  have hcells : g.cells[cellIdx g x y]? = some c := by
    rw [← get_cell_of_valid hv]
    exact hget
  have hcount := countP_set (fun cl => cl.has_mine) g.cells
    (cellIdx g x y) c ⟨true, c.state⟩ hcells
  simp only [if_pos] at hcount
  show List.countP (fun cl => cl.has_mine)
      (g.cells.set (cellIdx g x y) ⟨true, c.state⟩) ≤
    List.countP (fun cl => cl.has_mine) g.cells + 1
  omega

end Mocoma

namespace Mocoma

/-! ### The flood fill of `clear_from`: structural lemmas -/

/-- The four orthogonal neighbors `clear_from` walks, in source order. -/
def neighbors (p : Int × Int) : List (Int × Int) :=
  [(p.1 + 1, p.2), (p.1 - 1, p.2), (p.1, p.2 + 1), (p.1, p.2 - 1)]

/-- A cell whose visibility a run changed to `SHOWN` from something else. -/
def NewlyShown (g g2 : Grid) (c : Int × Int) : Prop :=
  stateAt g c ≠ some STATES.SHOWN ∧ stateAt g2 c = some STATES.SHOWN

instance (g g2 : Grid) (c : Int × Int) : Decidable (NewlyShown g g2 c) := by
  unfold NewlyShown
  infer_instance

/-- The revealed region of a `clear_from` call: the starting cell plus every
cell the call newly shows. -/
def Region (g g2 : Grid) (p c : Int × Int) : Prop :=
  c = p ∨ NewlyShown g g2 c

instance (g g2 : Grid) (p c : Int × Int) : Decidable (Region g g2 p c) := by
  unfold Region
  infer_instance

/-- Four-connected reachability through cells satisfying `S`. -/
inductive Reaches (S : Int × Int → Prop) : (Int × Int) → (Int × Int) → Prop
  | refl (a : Int × Int) : Reaches S a a
  | step (a b c : Int × Int) : b ∈ neighbors a → S b → Reaches S b c → Reaches S a c

theorem Reaches.mono {S T : Int × Int → Prop} (hst : ∀ t, S t → T t) {a b : Int × Int}
    (h : Reaches S a b) : Reaches T a b := by
  induction h with
  | refl a => exact Reaches.refl a
  | step a b c hnb hs _ ih => exact Reaches.step a b c hnb (hst b hs) ih

theorem isHiddenAt_iff {g : Grid} {c : Int × Int} :
    isHiddenAt g c = true ↔ stateAt g c = some STATES.HIDDEN := by
  unfold isHiddenAt stateAt
  cases get_cell g c.1 c.2 with
  | none => simp
  | some cell => simp

theorem stateAt_not_hidden {g : Grid} {c : Int × Int} (h : isHiddenAt g c = false) :
    ¬ stateAt g c = some STATES.HIDDEN := by
  intro hcon
  have := isHiddenAt_iff.mpr hcon
  rw [h] at this
  exact Bool.noConfusion this

theorem hidden_count_pos {g : Grid} {c : Int × Int}
    (h : stateAt g c = some STATES.HIDDEN) : 1 ≤ hidden_count g := by
  unfold stateAt at h
  cases hc : get_cell g c.1 c.2 with
  | none => rw [hc] at h; exact Option.noConfusion h
  | some cell =>
    rw [hc] at h
    have hst : cell.state = STATES.HIDDEN := by
      have := Option.some.inj h
      simpa using this
    have hv := get_cell_valid_of_some hc
    rw [get_cell_of_valid hv] at hc
    have hmem : cell ∈ g.cells := by
      obtain ⟨hlt, he⟩ := List.getElem?_eq_some.mp hc
      exact he ▸ List.getElem_mem hlt
    unfold hidden_count
    refine List.countP_pos_iff.mpr ⟨cell, hmem, ?_⟩
    simp [hst]

theorem intRange_mem {a b t : Int} : t ∈ intRange a b ↔ a ≤ t ∧ t < b := by
  unfold intRange
  rw [List.mem_map]
  constructor
  · rintro ⟨i, hi, rfl⟩
    rw [List.mem_range] at hi
    omega
  · rintro ⟨h1, h2⟩
    refine ⟨(t - a).toNat, ?_, ?_⟩
    · rw [List.mem_range]
      omega
    · show a + ((t - a).toNat : Int) = t
      omega

theorem mem_around_of_neighbor {g : Grid} {x y u v : Int}
    (hx : coords_are_valid g x y = true)
    (ho : (u, v) ∈ neighbors (x, y)) (hv : coords_are_valid g u v = true) :
    (u, v) ∈ around_coords g x y := by
  simp only [neighbors, List.mem_cons, List.not_mem_nil, or_false, Prod.mk.injEq] at ho
  rw [coords_are_valid_iff] at hx hv
  unfold around_coords
  rw [List.mem_flatMap]
  rcases ho with ⟨rfl, rfl⟩ | ⟨rfl, rfl⟩ | ⟨rfl, rfl⟩ | ⟨rfl, rfl⟩ <;>
    exact ⟨_, intRange_mem.mpr (by omega), List.mem_map.mpr ⟨_, intRange_mem.mpr (by omega), rfl⟩⟩

theorem n_mines_around_zero_no_mine {g : Grid} {x y u v : Int}
    (h : n_mines_around g x y = some 0) (ho : (u, v) ∈ neighbors (x, y))
    (hv : coords_are_valid g u v = true) : mine_at g u v = false := by
  unfold n_mines_around at h
  by_cases hx : coords_are_valid g x y = true
  · rw [if_pos hx] at h
    have hcount : (around_coords g x y).countP (fun d => mine_at g d.1 d.2) = 0 :=
      Option.some.inj h
    have hmem := mem_around_of_neighbor hx ho hv
    have := List.countP_eq_zero.mp hcount (u, v) hmem
    simpa using this
  · rw [if_neg hx] at h
    exact Option.noConfusion h

/-- Unfolding of `clearFromAux` at positive fuel, once `show_cell` failed. -/
theorem clearFromAux_step_none {fuel : Nat} {g : Grid} {x y : Int}
    (hsh : show_cell g x y = none) : clearFromAux (fuel + 1) g x y = none := by
  show (match show_cell g x y with
    | none => none
    | some g1 =>
      match n_mines_around g1 x y with
      | none => none
      | some n =>
        if n = 0 then
          clearStep (clearFromAux fuel)
            (clearStep (clearFromAux fuel)
              (clearStep (clearFromAux fuel)
                (clearStep (clearFromAux fuel) (some (g1, 1)) (x + 1) y)
                (x - 1) y)
              x (y + 1))
            x (y - 1)
        else some (g1, 1)) = none
  rw [hsh]

/-- Unfolding of `clearFromAux` at positive fuel, once `show_cell` succeeded. -/
theorem clearFromAux_step {fuel : Nat} {g g1 : Grid} {x y : Int}
    (hsh : show_cell g x y = some g1) :
    clearFromAux (fuel + 1) g x y =
      match n_mines_around g1 x y with
      | none => none
      | some n =>
        if n = 0 then
          clearStep (clearFromAux fuel)
            (clearStep (clearFromAux fuel)
              (clearStep (clearFromAux fuel)
                (clearStep (clearFromAux fuel) (some (g1, 1)) (x + 1) y)
                (x - 1) y)
              x (y + 1))
            x (y - 1)
        else some (g1, 1) := by
  show (match show_cell g x y with
    | none => none
    | some g1 =>
      match n_mines_around g1 x y with
      | none => none
      | some n =>
        if n = 0 then
          clearStep (clearFromAux fuel)
            (clearStep (clearFromAux fuel)
              (clearStep (clearFromAux fuel)
                (clearStep (clearFromAux fuel) (some (g1, 1)) (x + 1) y)
                (x - 1) y)
              x (y + 1))
            x (y - 1)
        else some (g1, 1)) = _
  rw [hsh]

/-- Unfolding once both `show_cell` and `n_mines_around` are known. -/
theorem clearFromAux_step2 {fuel : Nat} {g g1 : Grid} {x y : Int} {n : Nat}
    (hsh : show_cell g x y = some g1) (hn : n_mines_around g1 x y = some n) :
    clearFromAux (fuel + 1) g x y =
      if n = 0 then
        clearStep (clearFromAux fuel)
          (clearStep (clearFromAux fuel)
            (clearStep (clearFromAux fuel)
              (clearStep (clearFromAux fuel) (some (g1, 1)) (x + 1) y)
              (x - 1) y)
            x (y + 1))
          x (y - 1)
      else some (g1, 1) := by
  rw [clearFromAux_step hsh, hn]

/-- Case analysis on one `clearStep` that produced a result. -/
theorem clearStep_cases {sub : Grid → Int → Int → Option (Grid × Nat)}
    {acc : Option (Grid × Nat)} {cx cy : Int} {r : Grid × Nat}
    (h : clearStep sub acc cx cy = some r) :
    ∃ gc k, acc = some (gc, k) ∧
      ((∃ r2, (coords_are_valid gc cx cy && isHiddenAt gc (cx, cy)) = true ∧
          sub gc cx cy = some r2 ∧ r = (r2.1, k + r2.2)) ∨
        ((coords_are_valid gc cx cy && isHiddenAt gc (cx, cy)) = false ∧ r = (gc, k))) := by
  cases acc with
  | none => exact Option.noConfusion h
  | some a =>
    obtain ⟨gc, k⟩ := a
    refine ⟨gc, k, rfl, ?_⟩
    have h2 : (if (coords_are_valid gc cx cy && isHiddenAt gc (cx, cy)) = true then
        match sub gc cx cy with
        | none => none
        | some (g2, k2) => some (g2, k + k2)
      else some (gc, k)) = some r := h
    by_cases hg : (coords_are_valid gc cx cy && isHiddenAt gc (cx, cy)) = true
    · rw [if_pos hg] at h2
      cases hs : sub gc cx cy with
      | none =>
        rw [hs] at h2
        exact Option.noConfusion h2
      | some r2 =>
        obtain ⟨g2, k2⟩ := r2
        rw [hs] at h2
        have h3 : some (g2, k + k2) = some r := h2
        exact Or.inl ⟨(g2, k2), hg, rfl, (Option.some.inj h3).symm⟩
    · rw [if_neg hg] at h2
      have h3 : some (gc, k) = some r := h2
      exact Or.inr ⟨Bool.not_eq_true _ ▸ hg, (Option.some.inj h3).symm⟩

end Mocoma

namespace Mocoma

/-- Completing the unfolding when `n_mines_around` failed (never reached on
valid coordinates; kept for exhaustive case analyses). -/
theorem clearFromAux_step2_none {fuel : Nat} {g g1 : Grid} {x y : Int}
    (hsh : show_cell g x y = some g1) (hn : n_mines_around g1 x y = none) :
    clearFromAux (fuel + 1) g x y = none := by
  rw [clearFromAux_step hsh, hn]

/-- One `clearStep` of a successful run only evolves the grid. -/
theorem clearStep_evolves_chain {fuel : Nat}
    (ih : ∀ (g : Grid) (x y : Int) (r : Grid × Nat),
      clearFromAux fuel g x y = some r → Evolves g r.1)
    {acc : Option (Grid × Nat)} {cx cy : Int} {r : Grid × Nat}
    (h : clearStep (clearFromAux fuel) acc cx cy = some r) :
    ∃ a, acc = some a ∧ Evolves a.1 r.1 := by
  obtain ⟨gc, k, hacc, hcase⟩ := clearStep_cases h
  refine ⟨(gc, k), hacc, ?_⟩
  rcases hcase with ⟨r2, hg, hsub, heq⟩ | ⟨hg, heq⟩
  · have hb : r.1 = r2.1 := by rw [heq]
    rw [hb]
    exact ih _ _ _ _ hsub
  · have hb : r.1 = gc := by rw [heq]
    rw [hb]
    exact evolves_refl gc

/-- Every successful `clearFromAux` run only evolves the grid. -/
theorem clearFromAux_evolves :
    ∀ (fuel : Nat) (g : Grid) (x y : Int) (r : Grid × Nat),
      clearFromAux fuel g x y = some r → Evolves g r.1 := by
  intro fuel
  induction fuel with
  | zero => intro g x y r h; exact Option.noConfusion h
  | succ fuel ih =>
    intro g x y r h
    cases hsh : show_cell g x y with
    | none =>
      rw [clearFromAux_step_none hsh] at h
      exact Option.noConfusion h
    | some g1 =>
      have hev1 : Evolves g g1 := show_cell_evolves hsh
      cases hn : n_mines_around g1 x y with
      | none =>
        rw [clearFromAux_step2_none hsh hn] at h
        exact Option.noConfusion h
      | some n =>
        rw [clearFromAux_step2 hsh hn] at h
        by_cases hz : n = 0
        · rw [if_pos hz] at h
          obtain ⟨a3, ha3, e3⟩ := clearStep_evolves_chain ih h
          obtain ⟨a2, ha2, e2⟩ := clearStep_evolves_chain ih ha3
          obtain ⟨a1, ha1, e1⟩ := clearStep_evolves_chain ih ha2
          obtain ⟨a0, ha0, e0⟩ := clearStep_evolves_chain ih ha1
          have ha0g : a0 = (g1, 1) := (Option.some.inj ha0).symm
          rw [ha0g] at e0
          exact evolves_trans hev1
            (evolves_trans e0 (evolves_trans e1 (evolves_trans e2 e3)))
        · rw [if_neg hz] at h
          have : (g1, 1) = r := Option.some.inj h
          rw [← this]
          exact hev1

/-- One `clearStep` succeeds and keeps the invariants, given that recursion
succeeds on hidden valid cells within the fuel. -/
theorem clearStep_total {fuel : Nat}
    (ihTot : ∀ (g : Grid) (x y : Int), WF g → coords_are_valid g x y = true →
      isHiddenAt g (x, y) = true → hidden_count g ≤ fuel →
      ∃ r, clearFromAux fuel g x y = some r)
    {gc : Grid} {k : Nat} {cx cy : Int}
    (hwf : WF gc) (hfuel : hidden_count gc ≤ fuel) :
    ∃ g2 k2, clearStep (clearFromAux fuel) (some (gc, k)) cx cy = some (g2, k2) ∧
      Evolves gc g2 ∧ WF g2 ∧ hidden_count g2 ≤ hidden_count gc := by
  have hdef : clearStep (clearFromAux fuel) (some (gc, k)) cx cy =
      (if (coords_are_valid gc cx cy && isHiddenAt gc (cx, cy)) = true then
        match clearFromAux fuel gc cx cy with
        | none => none
        | some (g2, k2) => some (g2, k + k2)
      else some (gc, k)) := rfl
  by_cases hg : (coords_are_valid gc cx cy && isHiddenAt gc (cx, cy)) = true
  · obtain ⟨hv, hh⟩ := Bool.and_eq_true_iff.mp hg
    obtain ⟨r2, hr2⟩ := ihTot gc cx cy hwf hv hh hfuel
    obtain ⟨g2, k2⟩ := r2
    have hev : Evolves gc g2 := clearFromAux_evolves fuel gc cx cy (g2, k2) hr2
    refine ⟨g2, k + k2, ?_, hev, hev.wf hwf, hev.hidden_count_le⟩
    rw [hdef, if_pos hg, hr2]
  · refine ⟨gc, k, ?_, evolves_refl gc, hwf, Nat.le_refl _⟩
    rw [hdef, if_neg hg]

/-- With fuel at least the number of hidden cells (plus one when the start
cell is not itself hidden), `clearFromAux` always returns a grid: the
recursion of `clear_from` terminates. -/
theorem clearFromAux_total :
    ∀ (fuel : Nat) (g : Grid) (x y : Int), WF g → coords_are_valid g x y = true →
      (isHiddenAt g (x, y) = true → hidden_count g ≤ fuel) →
      (isHiddenAt g (x, y) = false → hidden_count g + 1 ≤ fuel) →
      ∃ r, clearFromAux fuel g x y = some r := by
  intro fuel
  induction fuel with
  | zero =>
    intro g x y hwf hv hfh hfn
    exfalso
    cases hh : isHiddenAt g (x, y) with
    | true =>
      have h1 := hidden_count_pos (isHiddenAt_iff.mp hh)
      have h2 := hfh hh
      omega
    | false =>
      have h2 := hfn hh
      omega
  | succ fuel ih =>
    intro g x y hwf hv hfh hfn
    obtain ⟨g1, hsh⟩ := show_cell_some hwf hv
    have hev1 := show_cell_evolves hsh
    have hwf1 := hev1.wf hwf
    have hv1 : coords_are_valid g1 x y = true := by rw [hev1.valid_congr]; exact hv
    have hhc1 : hidden_count g1 ≤ fuel := by
      have heq := show_cell_hidden_count hsh
      cases hh : isHiddenAt g (x, y) with
      | true =>
        have := hfh hh
        rw [hh] at heq
        simp at heq
        omega
      | false =>
        have := hfn hh
        rw [hh] at heq
        simp at heq
        omega
    have hn : n_mines_around g1 x y =
        some ((around_coords g1 x y).countP fun d => mine_at g1 d.1 d.2) := by
      unfold n_mines_around
      rw [if_pos hv1]
    set n := (around_coords g1 x y).countP fun d => mine_at g1 d.1 d.2 with hndef
    have ihTot : ∀ (g2 : Grid) (u v : Int), WF g2 → coords_are_valid g2 u v = true →
        isHiddenAt g2 (u, v) = true → hidden_count g2 ≤ fuel →
        ∃ r, clearFromAux fuel g2 u v = some r := by
      intro g2 u v hw2 hv2 hh2 hc2
      exact ih g2 u v hw2 hv2 (fun _ => hc2) (fun hcon => by rw [hh2] at hcon; cases hcon)
    by_cases hz : n = 0
    · obtain ⟨b1, k1, hs1, hev2, hw2, hc2⟩ :=
        @clearStep_total fuel ihTot g1 1 (x + 1) y hwf1 hhc1
      obtain ⟨b2, k2, hs2, hev3, hw3, hc3⟩ :=
        @clearStep_total fuel ihTot b1 k1 (x - 1) y hw2 (le_trans hc2 hhc1)
      obtain ⟨b3, k3, hs3, hev4, hw4, hc4⟩ :=
        @clearStep_total fuel ihTot b2 k2 x (y + 1) hw3
          (le_trans hc3 (le_trans hc2 hhc1))
      obtain ⟨b4, k4, hs4, hev5, hw5, hc5⟩ :=
        @clearStep_total fuel ihTot b3 k3 x (y - 1) hw4
          (le_trans hc4 (le_trans hc3 (le_trans hc2 hhc1)))
      refine ⟨(b4, k4), ?_⟩
      rw [clearFromAux_step2 hsh hn, if_pos hz, hs1, hs2, hs3, hs4]
    · refine ⟨(g1, 1), ?_⟩
      rw [clearFromAux_step2 hsh hn, if_neg hz]

end Mocoma

namespace Mocoma

theorem isHiddenAt_valid {g : Grid} {c : Int × Int} (h : isHiddenAt g c = true) :
    coords_are_valid g c.1 c.2 = true := by
  unfold isHiddenAt at h
  cases hc : get_cell g c.1 c.2 with
  | none => rw [hc] at h; exact Bool.noConfusion h
  | some cell => exact get_cell_valid_of_some hc

theorem newlyShown_split {g1 : Grid} (g2 : Grid) {g3 : Grid} {c : Int × Int} (h : NewlyShown g1 g3 c) :
    NewlyShown g1 g2 c ∨ NewlyShown g2 g3 c := by
  by_cases h2 : stateAt g2 c = some STATES.SHOWN
  · exact Or.inl ⟨h.1, h2⟩
  · exact Or.inr ⟨h2, h.2⟩

/-- Decompose a successful four-neighbor walk into its four steps, with the
evolution facts between the intermediate grids. -/
theorem clearChain_full {fuel : Nat} {g1 : Grid} {x y : Int} {r : Grid × Nat}
    (h : clearStep (clearFromAux fuel)
          (clearStep (clearFromAux fuel)
            (clearStep (clearFromAux fuel)
              (clearStep (clearFromAux fuel) (some (g1, 1)) (x + 1) y)
              (x - 1) y)
            x (y + 1))
          x (y - 1) = some r) :
    ∃ a1 a2 a3 : Grid × Nat,
      clearStep (clearFromAux fuel) (some (g1, 1)) (x + 1) y = some a1 ∧
      clearStep (clearFromAux fuel) (some a1) (x - 1) y = some a2 ∧
      clearStep (clearFromAux fuel) (some a2) x (y + 1) = some a3 ∧
      clearStep (clearFromAux fuel) (some a3) x (y - 1) = some r ∧
      Evolves g1 a1.1 ∧ Evolves a1.1 a2.1 ∧ Evolves a2.1 a3.1 ∧ Evolves a3.1 r.1 := by
  have hev := clearFromAux_evolves fuel
  obtain ⟨b3, k3, ha3, _⟩ := clearStep_cases h
  obtain ⟨b2, k2, ha2, _⟩ := clearStep_cases ha3
  obtain ⟨b1, k1, ha1, _⟩ := clearStep_cases ha2
  rw [ha1] at ha2
  rw [ha1, ha2] at ha3
  rw [ha1, ha2, ha3] at h
  obtain ⟨a0, ha0, e1⟩ := clearStep_evolves_chain hev ha1
  have ha0g : a0 = (g1, 1) := (Option.some.inj ha0).symm
  rw [ha0g] at e1
  obtain ⟨a1x, ha1x, e2⟩ := clearStep_evolves_chain hev ha2
  have : a1x = (b1, k1) := (Option.some.inj ha1x).symm
  rw [this] at e2
  obtain ⟨a2x, ha2x, e3⟩ := clearStep_evolves_chain hev ha3
  have : a2x = (b2, k2) := (Option.some.inj ha2x).symm
  rw [this] at e3
  obtain ⟨a3x, ha3x, e4⟩ := clearStep_evolves_chain hev h
  have : a3x = (b3, k3) := (Option.some.inj ha3x).symm
  rw [this] at e4
  exact ⟨(b1, k1), (b2, k2), (b3, k3), ha1, ha2, ha3, h, e1, e2, e3, e4⟩

/-- One `clearStep` of a successful run: the activation count plus the
remaining hidden cells never grows. -/
theorem clearStep_count {fuel : Nat}
    (ihCount : ∀ (g : Grid) (x y : Int) (r : Grid × Nat),
      clearFromAux fuel g x y = some r → WF g →
      r.2 + hidden_count r.1 ≤ hidden_count g + (if isHiddenAt g (x, y) then 0 else 1))
    {gc : Grid} {k : Nat} {cx cy : Int} {r : Grid × Nat}
    (h : clearStep (clearFromAux fuel) (some (gc, k)) cx cy = some r) (hwf : WF gc) :
    r.2 + hidden_count r.1 ≤ k + hidden_count gc := by
  obtain ⟨gc2, k2, hacc, hcase⟩ := clearStep_cases h
  have hgc : gc2 = gc := congrArg (fun p => p.1) (Option.some.inj hacc.symm)
  have hk : k2 = k := congrArg (fun p => p.2) (Option.some.inj hacc.symm)
  subst hgc; subst hk
  rcases hcase with ⟨r2, hg, hsub, heq⟩ | ⟨hg, heq⟩
  · obtain ⟨hv, hh⟩ := Bool.and_eq_true_iff.mp hg
    have hc := ihCount _ cx cy r2 hsub hwf
    rw [if_pos hh] at hc
    subst heq
    simp only at hc ⊢
    omega
  · subst heq
    simp only
    omega

/-- Activation counting: a successful run makes at most one activation per
cell it un-hides, plus one for the starting call. -/
theorem clearFromAux_count :
    ∀ (fuel : Nat) (g : Grid) (x y : Int) (r : Grid × Nat),
      clearFromAux fuel g x y = some r → WF g →
      r.2 + hidden_count r.1 ≤ hidden_count g + (if isHiddenAt g (x, y) then 0 else 1) := by
  intro fuel
  induction fuel with
  | zero => intro g x y r h _; exact Option.noConfusion h
  | succ fuel ih =>
    intro g x y r h hwf
    cases hsh : show_cell g x y with
    | none =>
      rw [clearFromAux_step_none hsh] at h
      exact Option.noConfusion h
    | some g1 =>
      have hev1 := show_cell_evolves hsh
      have hwf1 := hev1.wf hwf
      have hcnt := show_cell_hidden_count hsh
      cases hn : n_mines_around g1 x y with
      | none =>
        rw [clearFromAux_step2_none hsh hn] at h
        exact Option.noConfusion h
      | some n =>
        rw [clearFromAux_step2 hsh hn] at h
        by_cases hz : n = 0
        · rw [if_pos hz] at h
          obtain ⟨a1, a2, a3, hs1, hs2, hs3, hs4, e1, e2, e3, e4⟩ := clearChain_full h
          have hw1 := e1.wf hwf1
          have hw2 := e2.wf hw1
          have hw3 := e3.wf hw2
          have hb1 := clearStep_count ih hs1 hwf1
          obtain ⟨b1, j1⟩ := a1
          obtain ⟨b2, j2⟩ := a2
          obtain ⟨b3, j3⟩ := a3
          have hb2 := clearStep_count ih hs2 hw1
          have hb3 := clearStep_count ih hs3 hw2
          have hb4 := clearStep_count ih hs4 hw3
          simp only at hb1 hb2 hb3 hb4
          cases hh : isHiddenAt g (x, y) with
          | true => rw [hh] at hcnt; simp at hcnt ⊢; omega
          | false => rw [hh] at hcnt; simp at hcnt ⊢; omega
        · rw [if_neg hz] at h
          have hr : (g1, 1) = r := Option.some.inj h
          rw [← hr]
          cases hh : isHiddenAt g (x, y) with
          | true => rw [hh] at hcnt; simp at hcnt ⊢; omega
          | false => rw [hh] at hcnt; simp at hcnt ⊢; omega

/-- A successful run leaves the starting cell `SHOWN`. -/
theorem clearFromAux_shows_start {fuel : Nat} {g : Grid} {x y : Int} {r : Grid × Nat}
    (hwf : WF g) (h : clearFromAux fuel g x y = some r) :
    stateAt r.1 (x, y) = some STATES.SHOWN := by
  cases fuel with
  | zero => exact Option.noConfusion h
  | succ fuel =>
    cases hsh : show_cell g x y with
    | none =>
      rw [clearFromAux_step_none hsh] at h
      exact Option.noConfusion h
    | some g1 =>
      have hshown := show_cell_stateAt_self hwf hsh
      cases hn : n_mines_around g1 x y with
      | none =>
        rw [clearFromAux_step2_none hsh hn] at h
        exact Option.noConfusion h
      | some n =>
        rw [clearFromAux_step2 hsh hn] at h
        by_cases hz : n = 0
        · rw [if_pos hz] at h
          obtain ⟨a1, a2, a3, hs1, hs2, hs3, hs4, e1, e2, e3, e4⟩ := clearChain_full h
          exact (e4.stateAt_shown (e3.stateAt_shown (e2.stateAt_shown
            (e1.stateAt_shown hshown))))
        · rw [if_neg hz] at h
          have hr : (g1, 1) = r := Option.some.inj h
          rw [← hr]
          exact hshown

end Mocoma

namespace Mocoma

theorem stateAt_valid {g : Grid} {c : Int × Int} {s : STATES}
    (h : stateAt g c = some s) : coords_are_valid g c.1 c.2 = true := by
  unfold stateAt at h
  cases hc : get_cell g c.1 c.2 with
  | none => rw [hc] at h; exact Option.noConfusion h
  | some cell => exact get_cell_valid_of_some hc

theorem stateAt_shown_ne_hidden {g : Grid} {c : Int × Int}
    (h : stateAt g c = some STATES.SHOWN) : ¬ stateAt g c = some STATES.HIDDEN := by
  rw [h]
  simp

/-- One `clearStep` of a successful run: a cell it newly shows is either the
walked neighbor itself (then hidden by the guard) or, by induction, a hidden
mine-free cell of the grid the step started from. -/
theorem clearStep_newly_shown {fuel : Nat}
    (ihNew : ∀ (g : Grid) (x y : Int) (r : Grid × Nat),
      clearFromAux fuel g x y = some r → ∀ c : Int × Int, NewlyShown g r.1 c →
        c = (x, y) ∨ (stateAt g c = some STATES.HIDDEN ∧ mine_at g c.1 c.2 = false))
    {gc : Grid} {k : Nat} {cx cy : Int} {r : Grid × Nat}
    (h : clearStep (clearFromAux fuel) (some (gc, k)) cx cy = some r)
    {c : Int × Int} (hnew : NewlyShown gc r.1 c) :
    (c = (cx, cy) ∧ stateAt gc c = some STATES.HIDDEN) ∨
      (stateAt gc c = some STATES.HIDDEN ∧ mine_at gc c.1 c.2 = false) := by
  obtain ⟨gc2, k2, hacc, hcase⟩ := clearStep_cases h
  have hgc : gc2 = gc := congrArg (fun p => p.1) (Option.some.inj hacc.symm)
  subst hgc
  rcases hcase with ⟨r2, hg, hsub, heq⟩ | ⟨hg, heq⟩
  · have hh := (Bool.and_eq_true_iff.mp hg).2
    have hr1 : r.1 = r2.1 := by rw [heq]
    rw [hr1] at hnew
    rcases ihNew gc2 cx cy r2 hsub c hnew with hceq | hrest
    · refine Or.inl ⟨hceq, ?_⟩
      rw [hceq]
      exact isHiddenAt_iff.mp hh
    · exact Or.inr hrest
  · have hr1 : r.1 = gc2 := by rw [heq]
    rw [hr1] at hnew
    exact absurd hnew.2 hnew.1

/-- Every cell a successful run newly shows, other than the starting cell,
was hidden before the run and carries no mine. -/
theorem clearFromAux_newly_shown :
    ∀ (fuel : Nat) (g : Grid) (x y : Int) (r : Grid × Nat),
      clearFromAux fuel g x y = some r → ∀ c : Int × Int, NewlyShown g r.1 c →
        c = (x, y) ∨ (stateAt g c = some STATES.HIDDEN ∧ mine_at g c.1 c.2 = false) := by
  intro fuel
  induction fuel with
  | zero => intro g x y r h; exact Option.noConfusion h
  | succ fuel ih =>
    intro g x y r h c hnew
    by_cases hcp : c = (x, y)
    · exact Or.inl hcp
    refine Or.inr ?_
    have hne : ¬ (c.1 = x ∧ c.2 = y) := by
      intro hcon
      exact hcp (Prod.ext hcon.1 hcon.2)
    cases hsh : show_cell g x y with
    | none =>
      rw [clearFromAux_step_none hsh] at h
      exact Option.noConfusion h
    | some g1 =>
      have hev1 := show_cell_evolves hsh
      have hstate1 : stateAt g1 c = stateAt g c := by
        unfold stateAt
        rw [show_cell_get_other hsh hne]
      cases hnm : n_mines_around g1 x y with
      | none =>
        rw [clearFromAux_step2_none hsh hnm] at h
        exact Option.noConfusion h
      | some n =>
        rw [clearFromAux_step2 hsh hnm] at h
        by_cases hz : n = 0
        · rw [if_pos hz] at h
          rw [hz] at hnm
          obtain ⟨a1, a2, a3, hs1, hs2, hs3, hs4, e1, e2, e3, e4⟩ := clearChain_full h
          have hnew1 : NewlyShown g1 r.1 c := ⟨by rw [hstate1]; exact hnew.1, hnew.2⟩
          have p1 : Evolves g a1.1 := evolves_trans hev1 e1
          have p2 : Evolves g a2.1 := evolves_trans p1 e2
          have p3 : Evolves g a3.1 := evolves_trans p2 e3
          have hleaf : ∀ (gp : Grid) (kp : Nat) (u v : Int) (ra : Grid × Nat),
              clearStep (clearFromAux fuel) (some (gp, kp)) u v = some ra →
              Evolves g gp → (u, v) ∈ neighbors (x, y) →
              NewlyShown gp ra.1 c →
              stateAt g c = some STATES.HIDDEN ∧ mine_at g c.1 c.2 = false := by
            intro gp kp u v ra hstep hpre hnb hnewp
            rcases clearStep_newly_shown ih hstep hnewp with ⟨hceq, hhid⟩ | ⟨hhid, hmf⟩
            · refine ⟨hpre.stateAt_hidden_back hhid, ?_⟩
              have hvgp : coords_are_valid gp c.1 c.2 = true := stateAt_valid hhid
              have hvg : coords_are_valid g c.1 c.2 = true := by
                rw [← hpre.valid_congr]
                exact hvgp
              have hv1 : coords_are_valid g1 c.1 c.2 = true := by
                rw [hev1.valid_congr]
                exact hvg
              subst hceq
              have hmine1 : mine_at g1 u v = false :=
                n_mines_around_zero_no_mine hnm hnb hv1
              rw [← hev1.mine_at_eq]
              exact hmine1
            · refine ⟨hpre.stateAt_hidden_back hhid, ?_⟩
              rw [← hpre.mine_at_eq c.1 c.2]
              exact hmf
          rcases newlyShown_split a1.1 hnew1 with hseg | hrest1
          · exact hleaf g1 1 (x + 1) y a1 hs1 hev1 (by simp [neighbors]) hseg
          · rcases newlyShown_split a2.1 hrest1 with hseg | hrest2
            · exact hleaf a1.1 a1.2 (x - 1) y a2 hs2 p1 (by simp [neighbors]) hseg
            · rcases newlyShown_split a3.1 hrest2 with hseg | hrest3
              · exact hleaf a2.1 a2.2 x (y + 1) a3 hs3 p2 (by simp [neighbors]) hseg
              · exact hleaf a3.1 a3.2 x (y - 1) r hs4 p3 (by simp [neighbors]) hrest3
        · rw [if_neg hz] at h
          have hr : r.1 = g1 := by rw [← Option.some.inj h]
          rw [hr] at hnew
          have hshown : stateAt g c = some STATES.SHOWN := by
            rw [← hstate1]
            exact hnew.2
          exact absurd hshown hnew.1

end Mocoma

namespace Mocoma

/-- Closure of a successful run: around any cell of the revealed region whose
(center-inclusive) mine count is zero, no in-bounds orthogonal neighbor is
left hidden - the fill stops only at counted cells, at non-hidden cells, and
at the grid edge. -/
theorem clearFromAux_closure :
    ∀ (fuel : Nat) (g : Grid) (x y : Int) (r : Grid × Nat), WF g →
      clearFromAux fuel g x y = some r →
      ∀ c : Int × Int, Region g r.1 (x, y) c → n_mines_around r.1 c.1 c.2 = some 0 →
        ∀ o : Int × Int, o ∈ neighbors c → coords_are_valid r.1 o.1 o.2 = true →
          ¬ stateAt r.1 o = some STATES.HIDDEN := by
  intro fuel
  induction fuel with
  | zero => intro g x y r _ h; exact Option.noConfusion h
  | succ fuel ih =>
    intro g x y r hwf h c hreg hn0 o ho hvo
    cases hsh : show_cell g x y with
    | none =>
      rw [clearFromAux_step_none hsh] at h
      exact Option.noConfusion h
    | some g1 =>
      have hev1 := show_cell_evolves hsh
      have hwf1 := hev1.wf hwf
      cases hnm : n_mines_around g1 x y with
      | none =>
        rw [clearFromAux_step2_none hsh hnm] at h
        exact Option.noConfusion h
      | some n =>
        rw [clearFromAux_step2 hsh hnm] at h
        by_cases hz : n = 0
        · rw [if_pos hz] at h
          rw [hz] at hnm
          obtain ⟨a1, a2, a3, hs1, hs2, hs3, hs4, e1, e2, e3, e4⟩ := clearChain_full h
          have hwA1 := e1.wf hwf1
          have hwA2 := e2.wf hwA1
          have hwA3 := e3.wf hwA2
          have s4 : Evolves a3.1 r.1 := e4
          have s3 : Evolves a2.1 r.1 := evolves_trans e3 s4
          have s2 : Evolves a1.1 r.1 := evolves_trans e2 s3
          have s1 : Evolves g1 r.1 := evolves_trans e1 s2
          by_cases hcp : c = (x, y)
          · -- the start cell: each of the four walked neighbors ends non-hidden
            subst hcp
            have hstart : ∀ (gp : Grid) (kp : Nat) (u v : Int) (ra : Grid × Nat),
                clearStep (clearFromAux fuel) (some (gp, kp)) u v = some ra → WF gp →
                Evolves ra.1 r.1 → o = (u, v) →
                ¬ stateAt r.1 o = some STATES.HIDDEN := by
              intro gp kp u v ra hstep hwgp hpost hoeq
              obtain ⟨gc2, k2, hacc, hcase⟩ := clearStep_cases hstep
              have hgc : gc2 = gp := congrArg (fun p => p.1) (Option.some.inj hacc.symm)
              subst hgc
              rcases hcase with ⟨r2, hg, hsub, heq⟩ | ⟨hg, heq⟩
              · have hshown : stateAt r2.1 (u, v) = some STATES.SHOWN :=
                  clearFromAux_shows_start hwgp hsub
                have hra : ra.1 = r2.1 := by rw [heq]
                rw [hoeq]
                refine stateAt_shown_ne_hidden (hpost.stateAt_shown ?_)
                rw [hra]
                exact hshown
              · have hra : ra.1 = gc2 := by rw [heq]
                rw [hra] at hpost
                have hvo2 : coords_are_valid r.1 u v = true := by
                  rw [hoeq] at hvo
                  exact hvo
                have hvgp : coords_are_valid gc2 u v = true := by
                  rw [hpost.valid_congr u v] at hvo2
                  exact hvo2
                have hhid : isHiddenAt gc2 (u, v) = false := by
                  cases hih : isHiddenAt gc2 (u, v) with
                  | false => rfl
                  | true => rw [hvgp, hih] at hg; exact Bool.noConfusion hg
                rw [hoeq]
                exact hpost.not_hidden (stateAt_not_hidden hhid)
            simp only [neighbors, List.mem_cons, List.not_mem_nil, or_false] at ho
            rcases ho with ho | ho | ho | ho
            · exact hstart g1 1 (x + 1) y a1 hs1 hwf1 s2 ho
            · exact hstart a1.1 a1.2 (x - 1) y a2 hs2 hwA1 s3 ho
            · exact hstart a2.1 a2.2 x (y + 1) a3 hs3 hwA2 s4 ho
            · exact hstart a3.1 a3.2 x (y - 1) r hs4 hwA3 (evolves_refl r.1) ho
          · -- a newly shown cell: it was activated inside exactly one step
            have hnew : NewlyShown g r.1 c := by
              rcases hreg with hreg | hreg
              · exact absurd hreg hcp
              · exact hreg
            have hne : ¬ (c.1 = x ∧ c.2 = y) := by
              intro hcon
              exact hcp (Prod.ext hcon.1 hcon.2)
            have hstate1 : stateAt g1 c = stateAt g c := by
              unfold stateAt
              rw [show_cell_get_other hsh hne]
            have hnew1 : NewlyShown g1 r.1 c := ⟨by rw [hstate1]; exact hnew.1, hnew.2⟩
            have hleaf : ∀ (gp : Grid) (kp : Nat) (u v : Int) (ra : Grid × Nat),
                clearStep (clearFromAux fuel) (some (gp, kp)) u v = some ra → WF gp →
                Evolves ra.1 r.1 → NewlyShown gp ra.1 c →
                ¬ stateAt r.1 o = some STATES.HIDDEN := by
              intro gp kp u v ra hstep hwgp hpost hnewp
              obtain ⟨gc2, k2, hacc, hcase⟩ := clearStep_cases hstep
              have hgc : gc2 = gp := congrArg (fun p => p.1) (Option.some.inj hacc.symm)
              subst hgc
              rcases hcase with ⟨r2, hg, hsub, heq⟩ | ⟨hg, heq⟩
              · have hra : ra.1 = r2.1 := by rw [heq]
                rw [hra] at hnewp hpost
                have hreg2 : Region gc2 r2.1 (u, v) c := Or.inr hnewp
                have hn02 : n_mines_around r2.1 c.1 c.2 = some 0 := by
                  rw [← hpost.n_mines_around_eq]
                  exact hn0
                have hvo2 : coords_are_valid r2.1 o.1 o.2 = true := by
                  rw [← hpost.valid_congr]
                  exact hvo
                have := ih gc2 u v r2 hwgp hsub c hreg2 hn02 o ho hvo2
                exact hpost.not_hidden this
              · have hra : ra.1 = gc2 := by rw [heq]
                rw [hra] at hnewp
                exact absurd hnewp.2 hnewp.1
            rcases newlyShown_split a1.1 hnew1 with hseg | hrest1
            · exact hleaf g1 1 (x + 1) y a1 hs1 hwf1 s2 hseg
            · rcases newlyShown_split a2.1 hrest1 with hseg | hrest2
              · exact hleaf a1.1 a1.2 (x - 1) y a2 hs2 hwA1 s3 hseg
              · rcases newlyShown_split a3.1 hrest2 with hseg | hrest3
                · exact hleaf a2.1 a2.2 x (y + 1) a3 hs3 hwA2 s4 hseg
                · exact hleaf a3.1 a3.2 x (y - 1) r hs4 hwA3 (evolves_refl r.1) hrest3
        · rw [if_neg hz] at h
          have hr : r.1 = g1 := by rw [← Option.some.inj h]
          rcases hreg with hceq | hnew
          · subst hceq
            rw [hr] at hn0
            rw [hnm] at hn0
            exact absurd (Option.some.inj hn0) hz
          · have hne2 : ¬ (c.1 = x ∧ c.2 = y) := by
              by_cases hcp : c = (x, y)
              · subst hcp
                rw [hr] at hn0
                rw [hnm] at hn0
                exact absurd (Option.some.inj hn0) hz
              · intro hcon
                exact hcp (Prod.ext hcon.1 hcon.2)
            have hstate1 : stateAt g1 c = stateAt g c := by
              unfold stateAt
              rw [show_cell_get_other hsh hne2]
            rw [hr] at hnew
            have hshown : stateAt g c = some STATES.SHOWN := by
              rw [← hstate1]
              exact hnew.2
            exact absurd hshown hnew.1

end Mocoma

namespace Mocoma

/-- Four-connectivity: every cell a successful run newly shows is reachable
from the starting cell through cells of the revealed region, stepping only
between orthogonal neighbors. -/
theorem clearFromAux_connected :
    ∀ (fuel : Nat) (g : Grid) (x y : Int) (r : Grid × Nat), WF g →
      clearFromAux fuel g x y = some r →
      ∀ c : Int × Int, NewlyShown g r.1 c → Reaches (Region g r.1 (x, y)) (x, y) c := by
  intro fuel
  induction fuel with
  | zero => intro g x y r _ h; exact Option.noConfusion h
  | succ fuel ih =>
    intro g x y r hwf h c hnew
    by_cases hcp : c = (x, y)
    · subst hcp
      exact Reaches.refl (x, y)
    have hne : ¬ (c.1 = x ∧ c.2 = y) := by
      intro hcon
      exact hcp (Prod.ext hcon.1 hcon.2)
    cases hsh : show_cell g x y with
    | none =>
      rw [clearFromAux_step_none hsh] at h
      exact Option.noConfusion h
    | some g1 =>
      have hev1 := show_cell_evolves hsh
      have hwf1 := hev1.wf hwf
      have hstate1 : stateAt g1 c = stateAt g c := by
        unfold stateAt
        rw [show_cell_get_other hsh hne]
      cases hnm : n_mines_around g1 x y with
      | none =>
        rw [clearFromAux_step2_none hsh hnm] at h
        exact Option.noConfusion h
      | some n =>
        rw [clearFromAux_step2 hsh hnm] at h
        by_cases hz : n = 0
        · rw [if_pos hz] at h
          obtain ⟨a1, a2, a3, hs1, hs2, hs3, hs4, e1, e2, e3, e4⟩ := clearChain_full h
          have hwA1 := e1.wf hwf1
          have hwA2 := e2.wf hwA1
          have hwA3 := e3.wf hwA2
          have s4 : Evolves a3.1 r.1 := e4
          have s3 : Evolves a2.1 r.1 := evolves_trans e3 s4
          have s2 : Evolves a1.1 r.1 := evolves_trans e2 s3
          have hnew1 : NewlyShown g1 r.1 c := ⟨by rw [hstate1]; exact hnew.1, hnew.2⟩
          have hleaf : ∀ (gp : Grid) (kp : Nat) (u v : Int) (ra : Grid × Nat),
              clearStep (clearFromAux fuel) (some (gp, kp)) u v = some ra → WF gp →
              Evolves g gp → Evolves ra.1 r.1 → (u, v) ∈ neighbors (x, y) →
              NewlyShown gp ra.1 c →
              Reaches (Region g r.1 (x, y)) (x, y) c := by
            intro gp kp u v ra hstep hwgp hpre hpost hnb hnewp
            obtain ⟨gc2, k2, hacc, hcase⟩ := clearStep_cases hstep
            have hgc : gc2 = gp := congrArg (fun p => p.1) (Option.some.inj hacc.symm)
            subst hgc
            rcases hcase with ⟨r2, hg, hsub, heq⟩ | ⟨hg, heq⟩
            · have hra : ra.1 = r2.1 := by rw [heq]
              rw [hra] at hnewp hpost
              have hh := (Bool.and_eq_true_iff.mp hg).2
              -- the walked neighbor is itself in the revealed region
              have hregnb : NewlyShown g r.1 (u, v) := by
                constructor
                · intro hcon
                  have := hpre.stateAt_shown hcon
                  have hhid := isHiddenAt_iff.mp hh
                  rw [this] at hhid
                  exact Option.noConfusion hhid fun hcc => STATES.noConfusion hcc
                · exact hpost.stateAt_shown (clearFromAux_shows_start hwgp hsub)
              by_cases hcuv : c = (u, v)
              · subst hcuv
                exact Reaches.step (x, y) (u, v) (u, v) hnb (Or.inr hregnb)
                  (Reaches.refl (u, v))
              · have hpath := ih gc2 u v r2 hwgp hsub c hnewp
                have hlift : ∀ t, Region gc2 r2.1 (u, v) t → Region g r.1 (x, y) t := by
                  intro t ht
                  rcases ht with hteq | htnew
                  · subst hteq
                    exact Or.inr hregnb
                  · refine Or.inr ⟨?_, hpost.stateAt_shown htnew.2⟩
                    intro hcon
                    exact htnew.1 (hpre.stateAt_shown hcon)
                exact Reaches.step (x, y) (u, v) c hnb (Or.inr hregnb)
                  (hpath.mono hlift)
            · have hra : ra.1 = gc2 := by rw [heq]
              rw [hra] at hnewp
              exact absurd hnewp.2 hnewp.1
          have p1 : Evolves g a1.1 := evolves_trans hev1 e1
          have p2 : Evolves g a2.1 := evolves_trans p1 e2
          have p3 : Evolves g a3.1 := evolves_trans p2 e3
          rcases newlyShown_split a1.1 hnew1 with hseg | hrest1
          · exact hleaf g1 1 (x + 1) y a1 hs1 hwf1 hev1 s2 (by simp [neighbors]) hseg
          · rcases newlyShown_split a2.1 hrest1 with hseg | hrest2
            · exact hleaf a1.1 a1.2 (x - 1) y a2 hs2 hwA1 p1 s3 (by simp [neighbors]) hseg
            · rcases newlyShown_split a3.1 hrest2 with hseg | hrest3
              · exact hleaf a2.1 a2.2 x (y + 1) a3 hs3 hwA2 p2 s4 (by simp [neighbors]) hseg
              · exact hleaf a3.1 a3.2 x (y - 1) r hs4 hwA3 p3 (evolves_refl r.1)
                  (by simp [neighbors]) hrest3
        · rw [if_neg hz] at h
          have hr : r.1 = g1 := by rw [← Option.some.inj h]
          rw [hr] at hnew
          have hshown : stateAt g c = some STATES.SHOWN := by
            rw [← hstate1]
            exact hnew.2
          exact absurd hshown hnew.1

end Mocoma

namespace Mocoma

/-! ### Grid construction and mine placement -/

theorem WF_init (width height : Nat) : WF (Grid.init width height) := by
  unfold WF Grid.init
  simp

theorem init_get_cell {width height : Nat} {x y : Int}
    (hv : coords_are_valid (Grid.init width height) x y = true) :
    get_cell (Grid.init width height) x y = some ⟨false, STATES.HIDDEN⟩ := by
  have hlt := cellIdx_lt (WF_init width height) hv
  rw [get_cell_of_valid hv]
  have hc : (Grid.init width height).cells =
      List.replicate (width * height) ⟨false, STATES.HIDDEN⟩ := rfl
  rw [hc] at hlt ⊢
  rw [List.length_replicate] at hlt
  rw [List.getElem?_replicate, if_pos hlt]

theorem count_mines_init (width height : Nat) : count_mines (Grid.init width height) = 0 := by
  unfold count_mines Grid.init
  rw [List.countP_replicate]
  simp

theorem draw_point_nil_forbidden (g : Grid) (d : Int × Int) (rest : List (Int × Int)) :
    draw_point g [] (d :: rest) = some (d, rest) := by
  unfold draw_point
  simp

/-- The placement loop with no exclusion set: given in-range draws, one draw
is consumed per mine, the shape is kept, cell states are untouched, and at
most one mine is added per iteration. -/
theorem gen_random_go_spec :
    ∀ (n : Nat) (g : Grid) (draws : List (Int × Int)), WF g →
      (∀ d ∈ draws, coords_are_valid g d.1 d.2 = true) → n ≤ draws.length →
      ∃ g2, gen_random_go [] n g draws = some g2 ∧
        g2.width = g.width ∧ g2.height = g.height ∧
        g2.cells.length = g.cells.length ∧
        count_mines g2 ≤ count_mines g + n ∧
        (∀ u v : Int, (get_cell g2 u v).map Cell.state = (get_cell g u v).map Cell.state) := by
  intro n
  induction n with
  | zero =>
    intro g draws _ _ _
    exact ⟨g, rfl, rfl, rfl, rfl, by omega, fun u v => rfl⟩
  | succ n ih =>
    intro g draws hwf hdr hlen
    cases draws with
    | nil => simp at hlen
    | cons d rest =>
      have hvd : coords_are_valid g d.1 d.2 = true := hdr d (by simp)
      obtain ⟨g1, hput⟩ := put_mine_some hwf hvd
      have hshape := put_mine_shape hput
      have hstates := put_mine_stateAt hwf hput
      have hcount := put_mine_count_le hput
      have hwf1 : WF g1 := by
        unfold WF at hwf ⊢
        rw [hshape.1, hshape.2.1, hshape.2.2, hwf]
      have hdr1 : ∀ d2 ∈ rest, coords_are_valid g1 d2.1 d2.2 = true := by
        intro d2 hd2
        rw [coords_are_valid_congr hshape.1 hshape.2.1]
        exact hdr d2 (by simp [hd2])
      obtain ⟨g2, hgo, hw2, hh2, hl2, hc2, hst2⟩ :=
        ih g1 rest hwf1 hdr1 (by simp at hlen; omega)
      refine ⟨g2, ?_, hw2.trans hshape.1, hh2.trans hshape.2.1,
        hl2.trans hshape.2.2, by omega, ?_⟩
      · show (match draw_point g [] (d :: rest) with
          | none => none
          | some (d2, rest2) =>
            match put_mine g d2.1 d2.2 with
            | none => none
            | some g3 => gen_random_go [] n g3 rest2) = some g2
        rw [draw_point_nil_forbidden]
        show (match put_mine g d.1 d.2 with
          | none => none
          | some g3 => gen_random_go [] n g3 rest) = some g2
        rw [hput]
        exact hgo
      · intro u v
        rw [hst2 u v, hstates u v]

/-! ### Win and loss -/

/-- No cell can witness a loss while the grid satisfies the win predicate:
a shown mine fails both disjuncts of the per-cell win condition. -/
theorem is_win_is_loss_exclusive (g : Grid) : (is_win g && is_loss g) = false := by
  unfold is_win is_loss
  cases hAll : g.cells.all (fun cell =>
      (cell.has_mine && cell.state == STATES.FLAGGED)
        || (!cell.has_mine && cell.state != STATES.FLAGGED)) with
  | false => simp
  | true =>
    cases hAny : g.cells.any (fun cell => cell.has_mine && cell.state == STATES.SHOWN) with
    | false => simp
    | true =>
      exfalso
      obtain ⟨cell, hmem, hq⟩ := List.any_eq_true.mp hAny
      have hp := List.all_eq_true.mp hAll cell hmem
      obtain ⟨hm, hs⟩ := cell
      cases hm <;> cases hs <;> simp_all

/-! ### Game loop -/

theorem play_of_ended {g : Grid} (h : ended g = true)
    (inputs : List (ACTIONS × (Int × Int))) (t : Nat) :
    play_until_end g inputs t = some (g, t) := by
  cases inputs with
  | nil => simp [play_until_end, h]
  | cons i rest =>
    obtain ⟨a, c⟩ := i
    simp [play_until_end, h]

/-- The loop only ever returns a grid on which the game has ended. -/
theorem play_exit_ended :
    ∀ (inputs : List (ACTIONS × (Int × Int))) (g : Grid) (t : Nat) (g2 : Grid) (t2 : Nat),
      play_until_end g inputs t = some (g2, t2) → ended g2 = true := by
  intro inputs
  induction inputs with
  | nil =>
    intro g t g2 t2 h
    unfold play_until_end at h
    by_cases he : ended g = true
    · rw [if_pos he] at h
      have heq := Option.some.inj h
      have hg : g = g2 := congrArg (fun p => p.1) heq
      rw [← hg]
      exact he
    · rw [if_neg he] at h
      exact Option.noConfusion h
  | cons i rest ih =>
    intro g t g2 t2 h
    obtain ⟨a, c⟩ := i
    by_cases he : ended g = true
    · rw [play_of_ended he] at h
      have heq := Option.some.inj h
      have hg : g = g2 := congrArg (fun p => p.1) heq
      rw [← hg]
      exact he
    · have h2 : (match do_action a c g with
        | none => none
        | some (g3, tore) =>
          play_until_end g3 rest (t + if tore then 1 else 0)) = some (g2, t2) := by
        unfold play_until_end at h
        rw [if_neg he] at h
        exact h
      cases hda : do_action a c g with
      | none => rw [hda] at h2; exact Option.noConfusion h2
      | some res =>
        obtain ⟨g3, tore⟩ := res
        rw [hda] at h2
        exact ih g3 _ g2 t2 h2

/-- A `QUIT` turn on a live grid: teardown is invoked, the grid is untouched,
and the loop continues with the remaining inputs. -/
theorem play_quit_step {g : Grid} (he : ended g = false) (c : Int × Int)
    (rest : List (ACTIONS × (Int × Int))) (t : Nat) :
    play_until_end g ((ACTIONS.QUIT, c) :: rest) t = play_until_end g rest (t + 1) := by
  show (if ended g = true then some (g, t)
    else match do_action ACTIONS.QUIT c g with
      | none => none
      | some (g3, tore) => play_until_end g3 rest (t + if tore then 1 else 0)) = _
  rw [he]
  simp [do_action]

/-- A `SHOW` turn on a live grid invokes `clear_from` and nothing else. -/
theorem play_show_step {g : Grid} (he : ended g = false) (c : Int × Int)
    (rest : List (ACTIONS × (Int × Int))) (t : Nat) :
    play_until_end g ((ACTIONS.SHOW, c) :: rest) t =
      match clear_from g c.1 c.2 with
      | none => none
      | some g2 => play_until_end g2 rest t := by
  show (if ended g = true then some (g, t)
    else match do_action ACTIONS.SHOW c g with
      | none => none
      | some (g3, tore) => play_until_end g3 rest (t + if tore then 1 else 0)) = _
  rw [he]
  simp only [Bool.false_eq_true, if_false, do_action]
  cases hcf : clear_from g c.1 c.2 with
  | none => simp
  | some g2 => simp

/-- A `FLAG` turn on a live grid invokes `flag_cell` and nothing else. -/
theorem play_flag_step {g : Grid} (he : ended g = false) (c : Int × Int)
    (rest : List (ACTIONS × (Int × Int))) (t : Nat) :
    play_until_end g ((ACTIONS.FLAG, c) :: rest) t =
      match flag_cell g c.1 c.2 with
      | none => none
      | some g2 => play_until_end g2 rest t := by
  show (if ended g = true then some (g, t)
    else match do_action ACTIONS.FLAG c g with
      | none => none
      | some (g3, tore) => play_until_end g3 rest (t + if tore then 1 else 0)) = _
  rw [he]
  simp only [Bool.false_eq_true, if_false, do_action]
  cases hcf : flag_cell g c.1 c.2 with
  | none => simp
  | some g2 => simp

/-! ### Remaining counting facts -/

theorem hidden_count_le_length (g : Grid) : hidden_count g ≤ g.cells.length :=
  List.countP_le_length _

theorem countP_lt_of_getElem (p : Cell → Bool) :
    ∀ (l : List Cell) (i : Nat) (a : Cell), l[i]? = some a → p a = false →
      l.countP p < l.length := by
  intro l
  induction l with
  | nil => intro i a h _; simp at h
  | cons hd tl ih =>
    intro i a h hp
    cases i with
    | zero =>
      simp only [List.getElem?_cons_zero, Option.some.injEq] at h
      subst h
      simp only [List.countP_cons, hp, List.length_cons]
      have := @List.countP_le_length _ p tl
      simp
      omega
    | succ j =>
      simp only [List.getElem?_cons_succ] at h
      have := ih j a h hp
      simp only [List.countP_cons, List.length_cons]
      by_cases hp2 : p hd = true
      · rw [if_pos hp2]
        omega
      · rw [if_neg hp2]
        omega

theorem hidden_count_lt {g : Grid} {x y : Int} (hwf : WF g)
    (hv : coords_are_valid g x y = true) (hh : isHiddenAt g (x, y) = false) :
    hidden_count g < g.cells.length := by
  obtain ⟨c, hc⟩ := get_cell_some hwf hv
  have hcp : (c.state == STATES.HIDDEN) = false := by
    unfold isHiddenAt at hh
    rw [hc] at hh
    exact hh
  have hcells : g.cells[cellIdx g x y]? = some c := by
    rw [← get_cell_of_valid hv]
    exact hc
  exact countP_lt_of_getElem _ g.cells (cellIdx g x y) c hcells hcp

theorem clear_from_none {g : Grid} {x y : Int} (h : ¬ coords_are_valid g x y = true) :
    clear_from g x y = none := by
  unfold clear_from
  rw [clearFromAux_step_none (show_cell_none h)]
  rfl

end Mocoma

namespace Mocoma

/-! ### The 3x3 block characterization of `n_mines_around` -/

/-- The nine coordinates of the 3x3 block centered on `(x, y)`, center
included, before clipping to the grid. -/
def box3x3 (x y : Int) : List (Int × Int) :=
  [(x - 1, y - 1), (x, y - 1), (x + 1, y - 1),
   (x - 1, y), (x, y), (x + 1, y),
   (x - 1, y + 1), (x, y + 1), (x + 1, y + 1)]

/-- Specification-side adjacency count: mines among the in-bounds cells of
the 3x3 block centered on `(x, y)`, the center cell included. -/
def spec_mines_around (g : Grid) (x y : Int) : Nat :=
  ((box3x3 x y).filter fun d => coords_are_valid g d.1 d.2).countP
    fun d => mine_at g d.1 d.2

theorem intRange_nodup (a b : Int) : (intRange a b).Nodup := by
  unfold intRange
  refine List.Nodup.map ?_ (List.nodup_range _)
  intro i j hij
  have h2 : a + (i : Int) = a + (j : Int) := hij
  omega

theorem around_coords_nodup (g : Grid) (x y : Int) : (around_coords g x y).Nodup := by
  unfold around_coords
  refine List.nodup_flatMap.mpr ⟨?_, ?_⟩
  · intro dx _
    refine List.Nodup.map ?_ (intRange_nodup _ _)
    intro a b hab
    have h2 : (dx, a).2 = (dx, b).2 := congrArg Prod.snd hab
    exact h2
  · refine List.Pairwise.imp ?_ (intRange_nodup (max 0 (x - 1)) (min (x + 2) (g.width : Int)))
    intro a b hab
    intro p hpa hpb
    rw [List.mem_map] at hpa hpb
    obtain ⟨da, _, hda⟩ := hpa
    obtain ⟨db, _, hdb⟩ := hpb
    apply hab
    have h1 : (a, da).1 = p.1 := congrArg Prod.fst hda
    have h2 : (b, db).1 = p.1 := congrArg Prod.fst hdb
    exact h1.trans h2.symm

theorem box3x3_nodup (x y : Int) : (box3x3 x y).Nodup := by
  simp only [box3x3, List.nodup_cons, List.mem_cons, List.not_mem_nil, or_false,
    List.nodup_nil, and_true, Prod.mk.injEq, not_or, true_and, not_false_iff]
  omega

theorem mem_box3x3 {x y u v : Int} :
    (u, v) ∈ box3x3 x y ↔ (x - 1 ≤ u ∧ u ≤ x + 1 ∧ y - 1 ≤ v ∧ v ≤ y + 1) := by
  simp only [box3x3, List.mem_cons, List.not_mem_nil, or_false, Prod.mk.injEq]
  constructor
  · intro h
    omega
  · intro h
    omega

theorem mem_around_coords {g : Grid} {x y u v : Int} :
    (u, v) ∈ around_coords g x y ↔
      ((u, v) ∈ box3x3 x y ∧ coords_are_valid g u v = true) := by
  unfold around_coords
  rw [List.mem_flatMap, mem_box3x3, coords_are_valid_iff]
  constructor
  · rintro ⟨dx, hdx, hmem⟩
    rw [List.mem_map] at hmem
    obtain ⟨dy, hdy, heq⟩ := hmem
    rw [intRange_mem] at hdx hdy
    have h1 : (dx, dy).1 = (u, v).1 := congrArg Prod.fst heq
    have h2 : (dx, dy).2 = (u, v).2 := congrArg Prod.snd heq
    simp only at h1 h2
    omega
  · rintro ⟨hbox, hval⟩
    refine ⟨u, intRange_mem.mpr (by omega), List.mem_map.mpr ⟨v, intRange_mem.mpr (by omega), rfl⟩⟩

/-- The code's clipped nested-loop count equals the specification-side count
over the in-bounds part of the 3x3 block (center included). -/
theorem n_mines_around_spec {g : Grid} {x y : Int} (hv : coords_are_valid g x y = true) :
    n_mines_around g x y = some (spec_mines_around g x y) := by
  unfold n_mines_around spec_mines_around
  rw [if_pos hv]
  congr 1
  apply List.Perm.countP_eq
  refine (List.perm_ext_iff_of_nodup (around_coords_nodup g x y)
    (List.Nodup.filter _ (box3x3_nodup x y))).mpr ?_
  intro d
  obtain ⟨u, v⟩ := d
  rw [mem_around_coords, List.mem_filter]

end Mocoma

namespace Mocoma

/-! ### Concrete grids used as claim inputs -/

/-- A 3x3 grid, all hidden, whose only mine sits at the center `(1, 1)`. -/
def g3cex : Grid :=
  ⟨3, 3, [⟨false, STATES.HIDDEN⟩, ⟨false, STATES.HIDDEN⟩, ⟨false, STATES.HIDDEN⟩,
          ⟨false, STATES.HIDDEN⟩, ⟨true, STATES.HIDDEN⟩, ⟨false, STATES.HIDDEN⟩,
          ⟨false, STATES.HIDDEN⟩, ⟨false, STATES.HIDDEN⟩, ⟨false, STATES.HIDDEN⟩]⟩

/-- A 4x4 grid, all hidden, with mines at `(3, 0)` and `(0, 3)`. -/
def g4cex : Grid :=
  ⟨4, 4, [⟨false, STATES.HIDDEN⟩, ⟨false, STATES.HIDDEN⟩, ⟨false, STATES.HIDDEN⟩, ⟨true, STATES.HIDDEN⟩,
          ⟨false, STATES.HIDDEN⟩, ⟨false, STATES.HIDDEN⟩, ⟨false, STATES.HIDDEN⟩, ⟨false, STATES.HIDDEN⟩,
          ⟨false, STATES.HIDDEN⟩, ⟨false, STATES.HIDDEN⟩, ⟨false, STATES.HIDDEN⟩, ⟨false, STATES.HIDDEN⟩,
          ⟨true, STATES.HIDDEN⟩, ⟨false, STATES.HIDDEN⟩, ⟨false, STATES.HIDDEN⟩, ⟨false, STATES.HIDDEN⟩]⟩

/-- A 1x1 grid holding one hidden mine (reachable: `gen_random 1 1 1` with
draw `(0,0)` builds it). -/
def gQuit : Grid := ⟨1, 1, [⟨true, STATES.HIDDEN⟩]⟩

/-- All in-bounds coordinates of a grid. -/
def allCoords (g : Grid) : List (Int × Int) :=
  (intRange 0 (g.width : Int)).flatMap fun u =>
    (intRange 0 (g.height : Int)).map fun v => (u, v)

/-- The boundary condition asserted by claim C3, as a decidable check: after
`clear_from` at `p`, every in-bounds cell outside the revealed region that
touches the region orthogonally has a positive mine count or is a mine. -/
def c3_boundary_claim (g : Grid) (p : Int × Int) : Bool :=
  match clear_from g p.1 p.2 with
  | none => true
  | some g2 =>
    (allCoords g2).all fun c =>
      if decide (Region g g2 p c) then true
      else if (neighbors c).any (fun o => decide (Region g g2 p o)) then
        ((n_mines_around g2 c.1 c.2).getD 0 != 0) || mine_at g2 c.1 c.2
      else true

/-! ### The claims -/

/-- Claim C1 (code_bugевidence): `gen_random` on a 2x1 grid asked for 2
mines, fed the duplicate draw `(0,0), (0,0)`, returns a grid with only ONE
mine - the redraw guard `(x, y) in forbidden_coords and has_mine` never
fires for the default empty exclusion list, so the duplicate draw re-mines
the same cell while the counter still goes down. -/
theorem C1_gen_random_undercounts :
    (gen_random 2 1 2 [] [(0, 0), (0, 0)]).map count_mines = some 1 := by decide

/-- Claim C2 (counterexample): on the 3x3 grid with a single central mine,
`n_mines_around (1, 1)` is not 0 - the claim says the center cell is
excluded from the count, but the code includes it. -/
theorem C2_counterexample : (n_mines_around g3cex 1 1 == some 0) = false := by decide

/-- Claim C2 (amended): `n_mines_around` counts mines in the 3x3
neighborhood centered on `(x, y)` INCLUDING the center cell, clipped to the
grid; on the 3x3 grid with the single mine at `(1, 1)` it returns 1. -/
theorem C2_mines_around_center_included :
    ∀ (g : Grid) (x y : Int), coords_are_valid g x y = true →
      n_mines_around g x y = some (spec_mines_around g x y) := by
  intro g x y hv
  exact n_mines_around_spec hv

theorem C2_witness :
    coords_are_valid g3cex 1 1 = true ∧
      n_mines_around g3cex 1 1 = some (spec_mines_around g3cex 1 1) ∧
      n_mines_around g3cex 1 1 = some 1 :=
  ⟨by decide, C2_mines_around_center_included g3cex 1 1 (by decide), by decide⟩

/-- Claim C3 (counterexample): on the all-hidden 4x4 grid with mines at
`(3, 0)` and `(0, 3)`, `clear_from (3, 3)` (a start with zero mine count)
leaves the in-bounds cell `(1, 1)` hidden against the revealed region with
`n_mines_around (1, 1) = 0` and no mine: the claimed boundary property
fails even for an all-hidden grid and a zero start. -/
theorem C3_counterexample : c3_boundary_claim g4cex (3, 3) = false := by decide

/-- Claim C3 (amended): `clear_from` shows the starting cell; every other
cell it newly shows was hidden and mine-free; mine flags never change; the
revealed region (start plus newly shown cells) is closed under expansion -
any region cell with mine count zero has every in-bounds orthogonal
neighbor non-hidden afterwards, so the fill stops only at counted cells,
at already-flagged-or-shown cells and at the grid edge; and the region is
4-connected: every newly shown cell is reachable from the start through
region cells by orthogonal steps. -/
theorem C3_revealArea_behavior :
    ∀ (g : Grid) (x y : Int) (g2 : Grid), WF g → clear_from g x y = some g2 →
      stateAt g2 (x, y) = some STATES.SHOWN ∧
      (∀ c : Int × Int, NewlyShown g g2 c → ¬ c = (x, y) →
        stateAt g c = some STATES.HIDDEN ∧ mine_at g c.1 c.2 = false) ∧
      (∀ u v : Int, mine_at g2 u v = mine_at g u v) ∧
      (∀ c : Int × Int, Region g g2 (x, y) c → n_mines_around g2 c.1 c.2 = some 0 →
        ∀ o ∈ neighbors c, coords_are_valid g2 o.1 o.2 = true →
          ¬ stateAt g2 o = some STATES.HIDDEN) ∧
      (∀ c : Int × Int, NewlyShown g g2 c → Reaches (Region g g2 (x, y)) (x, y) c) := by
  intro g x y g2 hwf hcf
  unfold clear_from at hcf
  obtain ⟨r, hr, hr1⟩ := Option.map_eq_some'.mp hcf
  subst hr1
  refine ⟨clearFromAux_shows_start hwf hr, ?_, ?_, ?_, ?_⟩
  · intro c hnew hne
    rcases clearFromAux_newly_shown _ g x y r hr c hnew with hceq | hres
    · exact absurd hceq hne
    · exact hres
  · intro u v
    exact (clearFromAux_evolves _ g x y r hr).mine_at_eq u v
  · intro c hreg hn0 o ho hvo
    exact clearFromAux_closure _ g x y r hwf hr c hreg hn0 o ho hvo
  · intro c hnew
    exact clearFromAux_connected _ g x y r hwf hr c hnew

theorem C3_witness :
    WF (Grid.init 1 1) ∧
    clear_from (Grid.init 1 1) 0 0 = some ⟨1, 1, [⟨false, STATES.SHOWN⟩]⟩ ∧
    (stateAt ⟨1, 1, [⟨false, STATES.SHOWN⟩]⟩ (0, 0) = some STATES.SHOWN ∧
      (∀ c : Int × Int, NewlyShown (Grid.init 1 1) ⟨1, 1, [⟨false, STATES.SHOWN⟩]⟩ c →
        ¬ c = (0, 0) →
        stateAt (Grid.init 1 1) c = some STATES.HIDDEN ∧
          mine_at (Grid.init 1 1) c.1 c.2 = false) ∧
      (∀ u v : Int, mine_at ⟨1, 1, [⟨false, STATES.SHOWN⟩]⟩ u v =
        mine_at (Grid.init 1 1) u v) ∧
      (∀ c : Int × Int,
        Region (Grid.init 1 1) ⟨1, 1, [⟨false, STATES.SHOWN⟩]⟩ (0, 0) c →
        n_mines_around ⟨1, 1, [⟨false, STATES.SHOWN⟩]⟩ c.1 c.2 = some 0 →
        ∀ o ∈ neighbors c,
          coords_are_valid (⟨1, 1, [⟨false, STATES.SHOWN⟩]⟩ : Grid) o.1 o.2 = true →
          ¬ stateAt ⟨1, 1, [⟨false, STATES.SHOWN⟩]⟩ o = some STATES.HIDDEN) ∧
      (∀ c : Int × Int, NewlyShown (Grid.init 1 1) ⟨1, 1, [⟨false, STATES.SHOWN⟩]⟩ c →
        Reaches (Region (Grid.init 1 1) ⟨1, 1, [⟨false, STATES.SHOWN⟩]⟩ (0, 0)) (0, 0) c)) :=
  ⟨by decide, by decide,
    C3_revealArea_behavior (Grid.init 1 1) 0 0 ⟨1, 1, [⟨false, STATES.SHOWN⟩]⟩
      (by decide) (by decide)⟩

/-- Claim C4: `is_win` and `is_loss` are never simultaneously true - on any
grid whatsoever, reachable or not: a shown mine witnessing `is_loss` fails
the per-cell win condition. -/
theorem C4_win_loss_mutually_exclusive : ∀ g : Grid, (is_win g && is_loss g) = false :=
  fun g => is_win_is_loss_exclusive g

/-- Claim C5 (counterexample): `gen_random 1 1 2` (two mines on a single
cell - precondition violated) succeeds instead of failing with any
`InvalidConfiguration`; and `gen_random 2 1 2` with full density succeeds
but does NOT mine every cell when the draws repeat. -/
theorem C5_counterexample :
    (gen_random 1 1 2 [] [(0, 0), (0, 0)]).isSome = true ∧
      (match gen_random 2 1 2 [] [(0, 0), (0, 0)] with
        | some g => g.cells.all fun c => c.has_mine
        | none => true) = false :=
  ⟨by decide, by decide⟩

/-- Claim C5 (amended): `gen_random` performs no argument validation at all.
For ANY requested mine count - larger than `width * height` included - and
any in-range draw stream long enough, it terminates normally and returns a
well-formed `width x height` grid whose cells are all untouched (hence all
hidden) and which carries at most `n_mines` mines; full density is not
guaranteed because duplicate draws re-mine the same cell. -/
theorem C5_gen_random_no_validation :
    ∀ (width height n_mines : Nat) (draws : List (Int × Int)),
      (∀ d ∈ draws, coords_are_valid (Grid.init width height) d.1 d.2 = true) →
      n_mines ≤ draws.length →
      ∃ g2, gen_random width height n_mines [] draws = some g2 ∧
        g2.width = width ∧ g2.height = height ∧
        g2.cells.length = width * height ∧
        count_mines g2 ≤ n_mines ∧
        (∀ u v : Int, coords_are_valid g2 u v = true →
          (get_cell g2 u v).map Cell.state = some STATES.HIDDEN) := by
  intro width height n_mines draws hdr hlen
  obtain ⟨g2, hgo, hw, hh, hl, hc, hst⟩ :=
    gen_random_go_spec n_mines (Grid.init width height) draws
      (WF_init width height) hdr hlen
  refine ⟨g2, hgo, hw, hh, ?_, ?_, ?_⟩
  · rw [hl]
    have : (Grid.init width height).cells.length = width * height := WF_init width height
    rw [this]
  · have := count_mines_init width height
    omega
  · intro u v hv2
    have hvi : coords_are_valid (Grid.init width height) u v = true := by
      rw [← coords_are_valid_congr hw hh]
      exact hv2
    rw [hst u v, init_get_cell hvi]
    rfl

theorem C5_witness :
    (∀ d ∈ ([(0, 0), (0, 0)] : List (Int × Int)),
      coords_are_valid (Grid.init 1 1) d.1 d.2 = true) ∧
    2 ≤ ([(0, 0), (0, 0)] : List (Int × Int)).length ∧
    (∃ g2, gen_random 1 1 2 [] [(0, 0), (0, 0)] = some g2 ∧
      g2.width = 1 ∧ g2.height = 1 ∧ g2.cells.length = 1 * 1 ∧
      count_mines g2 ≤ 2 ∧
      (∀ u v : Int, coords_are_valid g2 u v = true →
        (get_cell g2 u v).map Cell.state = some STATES.HIDDEN)) :=
  ⟨by decide, by decide,
    C5_gen_random_no_validation 1 1 2 [(0, 0), (0, 0)] (by decide) (by decide)⟩

/-- Claim C6: every grid operation given out-of-bounds coordinates fails
with the out-of-grid exception (modelled as `none`) before any mutation: in
this pure embedding the caller keeps the untouched grid, matching the
source, where each method validates (or reads through `get_cell`) before
its first write. -/
theorem C6_out_of_bounds_ops :
    ∀ (g : Grid) (x y : Int) (cell : Cell), coords_are_valid g x y = false →
      get_cell g x y = none ∧ set_cell g x y cell = none ∧
      n_mines_around g x y = none ∧ show_cell g x y = none ∧
      flag_cell g x y = none ∧ hide_cell g x y = none ∧
      clear_from g x y = none := by
  intro g x y cell h
  have hne : ¬ coords_are_valid g x y = true := by
    intro hcon
    rw [h] at hcon
    exact Bool.noConfusion hcon
  exact ⟨get_cell_none hne, set_cell_none hne, n_mines_around_none hne,
    show_cell_none hne, flag_cell_none hne, hide_cell_none hne, clear_from_none hne⟩

theorem C6_witness :
    coords_are_valid (Grid.init 2 2) (-1) 0 = false ∧
    (get_cell (Grid.init 2 2) (-1) 0 = none ∧
      set_cell (Grid.init 2 2) (-1) 0 ⟨true, STATES.FLAGGED⟩ = none ∧
      n_mines_around (Grid.init 2 2) (-1) 0 = none ∧
      show_cell (Grid.init 2 2) (-1) 0 = none ∧
      flag_cell (Grid.init 2 2) (-1) 0 = none ∧
      hide_cell (Grid.init 2 2) (-1) 0 = none ∧
      clear_from (Grid.init 2 2) (-1) 0 = none) :=
  ⟨by decide, C6_out_of_bounds_ops (Grid.init 2 2) (-1) 0 ⟨true, STATES.FLAGGED⟩ (by decide)⟩

/-- Claim C7: on a well-formed grid and a valid start, the recursion of
`clear_from` terminates - fuel `width * height + 1` is never exhausted -
and the number of activations (calls entered) is at most `width * height`:
each recursive activation is on a then-hidden cell it immediately shows,
so no cell is visited twice. -/
theorem C7_clear_from_terminates :
    ∀ (g : Grid) (x y : Int), WF g → coords_are_valid g x y = true →
      ∃ (g2 : Grid) (k : Nat),
        clearFromAux (g.width * g.height + 1) g x y = some (g2, k) ∧
        clear_from g x y = some g2 ∧ k ≤ g.width * g.height := by
  intro g x y hwf hv
  have hhc : hidden_count g ≤ g.width * g.height := by
    have h1 := hidden_count_le_length g
    unfold WF at hwf
    omega
  obtain ⟨r, hr⟩ := clearFromAux_total (g.width * g.height + 1) g x y hwf hv
    (fun _ => by omega) (fun _ => by omega)
  obtain ⟨g2, k⟩ := r
  have hcount := clearFromAux_count _ g x y (g2, k) hr hwf
  refine ⟨g2, k, hr, ?_, ?_⟩
  · unfold clear_from
    rw [hr]
    rfl
  · cases hh : isHiddenAt g (x, y) with
    | true =>
      rw [if_pos hh] at hcount
      simp only at hcount
      omega
    | false =>
      have hne : ¬ isHiddenAt g (x, y) = true := by
        intro hcon
        rw [hh] at hcon
        exact Bool.noConfusion hcon
      rw [if_neg hne] at hcount
      simp only at hcount
      have hlt := hidden_count_lt hwf hv hh
      unfold WF at hwf
      omega

theorem C7_witness :
    WF (Grid.init 2 2) ∧ coords_are_valid (Grid.init 2 2) 0 0 = true ∧
    (∃ (g2 : Grid) (k : Nat),
      clearFromAux ((Grid.init 2 2).width * (Grid.init 2 2).height + 1)
        (Grid.init 2 2) 0 0 = some (g2, k) ∧
      clear_from (Grid.init 2 2) 0 0 = some g2 ∧
      k ≤ (Grid.init 2 2).width * (Grid.init 2 2).height) :=
  ⟨by decide, by decide, C7_clear_from_terminates (Grid.init 2 2) 0 0 (by decide) (by decide)⟩

/-- Claim C8 (counterexample): on the live 1x1 mine grid, feeding the loop
`QUIT` and then `FLAG (0,0)` does NOT stop at the `QUIT`: teardown is
invoked (count 1) but the loop continues, applies the flag, and only then
exits - on a win. Under the claim the grid would come back unchanged. -/
theorem C8_counterexample :
    play_until_end gQuit [(ACTIONS.QUIT, (0, 0)), (ACTIONS.FLAG, (0, 0))] 0 =
      some (⟨1, 1, [⟨true, STATES.FLAGGED⟩]⟩, 1) ∧
    (play_until_end gQuit [(ACTIONS.QUIT, (0, 0)), (ACTIONS.FLAG, (0, 0))] 0).map
      (fun res => res.1 == gQuit) = some false :=
  ⟨by decide, by decide⟩

/-- Claim C8 (amended): in `play_until_end`, a `QUIT` turn on a live grid
invokes the collaborator's teardown and leaves the grid untouched, but the
loop does NOT terminate on it - it continues with the remaining inputs and
only exits when `ended()` holds; each other turn applies exactly one
action: `SHOW` invokes `clear_from` and `FLAG` invokes `flag_cell`. -/
theorem C8_quit_does_not_stop_loop :
    ∀ (g : Grid) (c : Int × Int) (rest : List (ACTIONS × (Int × Int))) (t : Nat),
      ended g = false →
      (play_until_end g ((ACTIONS.QUIT, c) :: rest) t = play_until_end g rest (t + 1)) ∧
      (play_until_end g ((ACTIONS.SHOW, c) :: rest) t =
        match clear_from g c.1 c.2 with
        | none => none
        | some g2 => play_until_end g2 rest t) ∧
      (play_until_end g ((ACTIONS.FLAG, c) :: rest) t =
        match flag_cell g c.1 c.2 with
        | none => none
        | some g2 => play_until_end g2 rest t) ∧
      (∀ (inputs : List (ACTIONS × (Int × Int))) (g2 : Grid) (t2 : Nat),
        play_until_end g inputs t = some (g2, t2) → ended g2 = true) := by
  intro g c rest t he
  exact ⟨play_quit_step he c rest t, play_show_step he c rest t,
    play_flag_step he c rest t,
    fun inputs g2 t2 h => play_exit_ended inputs g t g2 t2 h⟩

theorem C8_witness :
    ended gQuit = false ∧
    (play_until_end gQuit [(ACTIONS.QUIT, (0, 0))] 0 = play_until_end gQuit [] 1 ∧
      (play_until_end gQuit [(ACTIONS.SHOW, (0, 0))] 0 =
        match clear_from gQuit 0 0 with
        | none => none
        | some g2 => play_until_end g2 [] 0) ∧
      (play_until_end gQuit [(ACTIONS.FLAG, (0, 0))] 0 =
        match flag_cell gQuit 0 0 with
        | none => none
        | some g2 => play_until_end g2 [] 0) ∧
      (∀ (inputs : List (ACTIONS × (Int × Int))) (g2 : Grid) (t2 : Nat),
        play_until_end gQuit inputs 0 = some (g2, t2) → ended g2 = true)) :=
  ⟨by decide, C8_quit_does_not_stop_loop gQuit (0, 0) [] 0 (by decide)⟩

/-- Claim C9 (code_bug evidence): `gen_random` on a 2x1 grid with exclusion
set `[(0, 0)]` and the draw `(0, 0)` puts the mine exactly on the forbidden
coordinate: the redraw guard demands the forbidden cell ALSO already hold a
mine, so a fresh forbidden cell is accepted. -/
theorem C9_forbidden_coord_mined :
    (gen_random 2 1 1 [(0, 0)] [(0, 0)]).map (fun g => mine_at g 0 0) = some true := by
  decide

/-- Claim C10: `get_n_mines` never returns a number on any grid: it applies
`len` to a generator expression, which raises `TypeError` in CPython. -/
theorem C10_get_n_mines_always_fails : ∀ g : Grid, get_n_mines g = none := fun _ => rfl

end Mocoma
